import Mathlib

/-!
Verification development for the Vietnamese-aware spreadsheet search index
and hyperlink registry (backend of `tra-cuu-diem-ren-luyen`).

Strings are modelled as `List Char`; Python's `str` functions, the regular
expressions used by the code, and the Unicode operations from
`unicodedata` are embedded as executable Lean functions over an explicitly
documented character repertoire.  The modules embedded here are
`backend/utils/text_processing.py`, `backend/utils/url_helpers.py`,
`backend/services/index_service.py` and `backend/services/search_service.py`.
-/

namespace TraCuu

/-- Strings are modelled as lists of Unicode characters. -/
abbrev Str := List Char

/-- The ASCII apostrophe character. -/
def apos : Char := Char.ofNat 39

/-- Combining grave accent U+0300. -/
def mGrave : Char := '̀'

/-- Combining acute accent U+0301. -/
def mAcute : Char := '́'

/-- Combining tilde U+0303. -/
def mTilde : Char := '̃'

/-- Combining breve U+0306. -/
def mBreve : Char := '̆'

/-- Combining hook above U+0309. -/
def mHook : Char := '̉'

/-- Combining dot below U+0323. -/
def mDotB : Char := '̣'

/-! ## Generic character and substring helpers -/

/-- `leadsWith pat l` is true when `pat` is a contiguous initial run of `l`. -/
def leadsWith : Str → Str → Bool
  | [], _ => true
  | _ :: _, [] => false
  | p :: ps, c :: cs => p = c && leadsWith ps cs

/-- First index at which `pat` occurs as a contiguous run of `s`
(the semantics of Python's `str.find` / `re.search` for a literal pattern). -/
def idxOfSub (pat : Str) : Str → Option Nat
  | [] => if pat = [] then some 0 else none
  | c :: rest =>
    if leadsWith pat (c :: rest) then some 0
    else (idxOfSub pat rest).map (· + 1)

/-- `pat` occurs somewhere in `s` (Python's `pat in s`). -/
def containsSub (pat s : Str) : Bool := (idxOfSub pat s).isSome

/-- Concatenation of the images of the characters of `s` under `f`. -/
def expandWith (f : Char → Str) (s : Str) : Str := (s.map f).flatten

/-- Lower-casing of a single character, the behaviour of Python's
`str.lower` on the character repertoire of this development
(ASCII letters plus the Vietnamese stroked letter). -/
def lowerChar (c : Char) : Char :=
  if 65 ≤ c.toNat ∧ c.toNat ≤ 90 then Char.ofNat (c.toNat + 32)
  else if c = 'Đ' then 'đ' else c

/-- Python `str.lower`, character by character. -/
def lowerStr (s : Str) : Str := s.map lowerChar

/-- The whitespace characters recognised by Python's `str.strip`, `str.split`
and the regex class `\s` — ASCII whitespace plus the Unicode space
characters appearing in this development. -/
def isPySpace (c : Char) : Bool :=
  c = ' ' || c = '\t' || c = '\n' || c = '\r' || c = '\x0b' || c = '\x0c' ||
  c = '\x85' || c = ' ' || c = ' ' || c = ' ' || c = ' ' ||
  c = ' ' || c = ' ' || c = ' ' || c = '　'

/-- Python `str.strip()`: drop leading and trailing whitespace. -/
def stripWs (s : Str) : Str :=
  ((s.dropWhile isPySpace).reverse.dropWhile isPySpace).reverse

/-- Python `str.strip(chars)`: drop leading and trailing characters
belonging to `cs`. -/
def stripChars (cs : List Char) (s : Str) : Str :=
  ((s.dropWhile (cs.contains ·)).reverse.dropWhile (cs.contains ·)).reverse

/-! ## `backend/utils/text_processing.py` — TextNormalizer

The external pieces (the `ftfy` library and the Unicode character
database behind `unicodedata`) are not part of the repository; they are
modelled explicitly below, restricted to the character repertoire this
development uses, with each model documented at its definition. -/

/-- Modelled from the spec: the "general mis-decoding fixer" is the external
`ftfy.fix_encoding`, which is not part of this repository.  On text that is
already correctly decoded — which includes every string appearing in this
development — it returns its input unchanged, so it is modelled as the
identity function. -/
def ftfyFixEncoding (s : Str) : Str := s

/-- Modelled from the spec: the "final generic clean-up pass" is the external
`ftfy.fix_text`, which is not part of this repository.  On text that is
already correctly decoded and free of HTML escapes and width anomalies —
which includes every string appearing in this development — it returns its
input unchanged, so it is modelled as the identity function. -/
def ftfyFixText (s : Str) : Str := s

/-- The corruption signature substrings `_MOJIBAKE_SIGNS` of
`text_processing.py` (the fourth one is the two characters `Ä` `'`). -/
def mojibakeSigns : List Str :=
  [['Ã'], ['Â'], ['Æ', '°'], ['Ä', apos], ['á', 'º'], ['á', '»'],
   ['â', '€'], ['Ê'], ['Ð'], ['Þ']]

/-- `_looks_mojibake` from `text_processing.py`: the string is non-empty and
contains one of the corruption signatures or the replacement character. -/
def looks_mojibake (s : Str) : Bool :=
  if s = [] then false
  else mojibakeSigns.any (fun sign => containsSub sign s) ||
       containsSub ['�'] s

/-- Latin-1 (ISO-8859-1) strict encoding of one character. -/
def latin1EncodeChar (c : Char) : Option Nat :=
  if c.toNat ≤ 255 then some c.toNat else none

/-- The cp1252 mapping for the 0x80–0x9F block (byte, codepoint);
bytes 0x81, 0x8D, 0x8F, 0x90 and 0x9D are unassigned. -/
def cp1252Block : List (Nat × Nat) :=
  [(0x80, 0x20AC), (0x82, 0x201A), (0x83, 0x0192), (0x84, 0x201E),
   (0x85, 0x2026), (0x86, 0x2020), (0x87, 0x2021), (0x88, 0x02C6),
   (0x89, 0x2030), (0x8A, 0x0160), (0x8B, 0x2039), (0x8C, 0x0152),
   (0x8E, 0x017D), (0x91, 0x2018), (0x92, 0x2019), (0x93, 0x201C),
   (0x94, 0x201D), (0x95, 0x2022), (0x96, 0x2013), (0x97, 0x2014),
   (0x98, 0x02DC), (0x99, 0x2122), (0x9A, 0x0161), (0x9B, 0x203A),
   (0x9C, 0x0153), (0x9E, 0x017E), (0x9F, 0x0178)]

/-- Windows-1252 strict encoding of one character. -/
def cp1252EncodeChar (c : Char) : Option Nat :=
  match (cp1252Block.find? (fun p => p.2 == c.toNat)).map (·.1) with
  | some b => some b
  | none =>
    if c.toNat ≤ 255 ∧ ¬ (128 ≤ c.toNat ∧ c.toNat ≤ 159) then some c.toNat
    else none

/-- Encode a whole string with a per-character strict encoder. -/
def encodeStrict (enc : Char → Option Nat) : Str → Option (List Nat)
  | [] => some []
  | c :: rest => do
    let b ← enc c
    let bs ← encodeStrict enc rest
    pure (b :: bs)

/-- Strict UTF-8 decoding of a byte list (rejects stray continuation bytes,
truncated sequences, overlong forms and surrogates; fuelled by the list
length). -/
def utf8DecodeAux : Nat → List Nat → Option Str
  | _, [] => some []
  | 0, _ :: _ => none
  | fuel + 1, b :: rest =>
    if b < 0x80 then
      (utf8DecodeAux fuel rest).map (Char.ofNat b :: ·)
    else if 0xC2 ≤ b ∧ b ≤ 0xDF then
      match rest with
      | b2 :: rest2 =>
        if 0x80 ≤ b2 ∧ b2 ≤ 0xBF then
          (utf8DecodeAux fuel rest2).map
            (Char.ofNat ((b - 0xC0) * 64 + (b2 - 0x80)) :: ·)
        else none
      | [] => none
    else if 0xE0 ≤ b ∧ b ≤ 0xEF then
      match rest with
      | b2 :: b3 :: rest3 =>
        if 0x80 ≤ b2 ∧ b2 ≤ 0xBF ∧ 0x80 ≤ b3 ∧ b3 ≤ 0xBF ∧
           ¬ (b = 0xE0 ∧ b2 < 0xA0) ∧ ¬ (b = 0xED ∧ b2 ≥ 0xA0) then
          (utf8DecodeAux fuel rest3).map
            (Char.ofNat ((b - 0xE0) * 4096 + (b2 - 0x80) * 64 + (b3 - 0x80)) :: ·)
        else none
      | _ => none
    else if 0xF0 ≤ b ∧ b ≤ 0xF4 then
      match rest with
      | b2 :: b3 :: b4 :: rest4 =>
        if 0x80 ≤ b2 ∧ b2 ≤ 0xBF ∧ 0x80 ≤ b3 ∧ b3 ≤ 0xBF ∧ 0x80 ≤ b4 ∧ b4 ≤ 0xBF ∧
           ¬ (b = 0xF0 ∧ b2 < 0x90) ∧ ¬ (b = 0xF4 ∧ b2 ≥ 0x90) then
          (utf8DecodeAux fuel rest4).map
            (Char.ofNat ((b - 0xF0) * 262144 + (b2 - 0x80) * 4096 +
                         (b3 - 0x80) * 64 + (b4 - 0x80)) :: ·)
        else none
      | _ => none
    else none

/-- `bytes.decode("utf-8", errors="strict")`. -/
def utf8Decode (bs : List Nat) : Option Str := utf8DecodeAux bs.length bs

/-- `_latin1_to_utf8` from `text_processing.py`:
re-encode as Latin-1 and re-decode as UTF-8, `none` on failure. -/
def latin1_to_utf8 (s : Str) : Option Str :=
  (encodeStrict latin1EncodeChar s).bind utf8Decode

/-- `_cp1252_to_utf8` from `text_processing.py`. -/
def cp1252_to_utf8 (s : Str) : Option Str :=
  (encodeStrict cp1252EncodeChar s).bind utf8Decode

/-- `re.sub(r"[ \t]+", " ", s)`: collapse each maximal run of spaces and
tabs to a single space.  The flag records whether the previous character
was part of such a run. -/
def collapseSpTab : Bool → Str → Str
  | _, [] => []
  | inRun, c :: rest =>
    if c = ' ' ∨ c = '\t' then
      (if inRun then [] else [' ']) ++ collapseSpTab true rest
    else c :: collapseSpTab false rest

/-- `re.sub(r"\n{3,}", "\n\n", s)`: replace each run of three or more
newlines by exactly two.  `k` counts the pending newlines. -/
def collapseNlAux : Nat → Str → Str
  | k, [] => List.replicate (min k 2) '\n'
  | k, c :: rest =>
    if c = '\n' then collapseNlAux (k + 1) rest
    else List.replicate (min k 2) '\n' ++ c :: collapseNlAux 0 rest

/-- The whole-newline collapse, starting with no pending newlines. -/
def collapseNl (s : Str) : Str := collapseNlAux 0 s

/-- Canonical decomposition (the first step of NFC), modelled from the
Unicode character database for the characters of this development.
Characters outside the table decompose to themselves; in particular the
compatibility space U+2002 is canonically irreducible, so NFC keeps it. -/
def canonDecompChar (c : Char) : Str :=
  if c = 'à' then ['a', mGrave]
  else if c = 'ẵ' then ['a', mBreve, mTilde]
  else if c = 'ă' then ['a', mBreve]
  else [c]

/-- Canonical pairwise composition (the second step of NFC), modelled from
the Unicode character database for the characters of this development. -/
def composePair (a b : Char) : Option Char :=
  if a = 'a' ∧ b = mGrave then some 'à'
  else if a = 'a' ∧ b = mBreve then some 'ă'
  else if a = 'ă' ∧ b = mTilde then some 'ẵ'
  else none

/-- Greedy recomposition of adjacent pairs (fuelled by the list length;
each step consumes one list element). -/
def composeGreedyAux : Nat → Str → Str
  | _, [] => []
  | _, [c] => [c]
  | 0, l => l
  | fuel + 1, a :: b :: rest =>
    match composePair a b with
    | some ab => composeGreedyAux fuel (ab :: rest)
    | none => a :: composeGreedyAux fuel (b :: rest)

/-- Greedy recomposition of adjacent pairs. -/
def composeGreedy (s : Str) : Str := composeGreedyAux s.length s

/-- `unicodedata.normalize("NFC", s)`, modelled for the character
repertoire of this development. -/
def nfcStr (s : Str) : Str := composeGreedy (expandWith canonDecompChar s)

/-- Compatibility decomposition of one character
(`unicodedata.normalize("NFKD", ·)`), modelled from the Unicode character
database for the characters of this development; outputs are fully
decomposed.  Characters outside the table decompose to themselves —
in particular the stroked letters `đ`/`Đ` have no decomposition, which is
why the source replaces them by hand — and the en-space U+2002 has the
compatibility decomposition to a plain space. -/
def nfkdChar (c : Char) : Str :=
  if c = 'à' then ['a', mGrave]
  else if c = 'ẵ' then ['a', mBreve, mTilde]
  else if c = 'ă' then ['a', mBreve]
  else if c = ' ' then [' ']
  else [c]

/-- `unicodedata.combining c ≠ 0`: `c` is a combining mark.  Modelled from
the Unicode character database for the characters of this development. -/
def combiningChar (c : Char) : Bool :=
  c = mGrave || c = mAcute || c = mTilde || c = mBreve || c = mHook || c = mDotB

/-- `fix_vietnamese_text` from `text_processing.py`: the four-step repair
pipeline followed by whitespace normalisation, NFC and a final strip. -/
def fix_vietnamese_text (s : Str) : Str :=
  let s1 := ftfyFixEncoding s
  let s2 := if looks_mojibake s1 then (latin1_to_utf8 s1).getD s1 else s1
  let s3 := if looks_mojibake s2 then (cp1252_to_utf8 s2).getD s2 else s2
  let s4 := ftfyFixText s3
  let s4 := s4.map (fun c => if c = ' ' then ' ' else c)
  let s4 := s4.filter (fun c => c ≠ '​')
  let s4 := collapseSpTab false s4
  let s4 := collapseNl s4
  let s4 := nfcStr s4
  stripWs s4

/-- The character replacement `s.replace("đ", "d").replace("Đ", "D")` of
`fold_vietnamese`. -/
def replaceD (c : Char) : Char :=
  if c = 'đ' then 'd' else if c = 'Đ' then 'D' else c

/-- `fold_vietnamese` from `text_processing.py`: repair, replace `đ`/`Đ` by
`d`/`D`, NFKD-decompose, drop combining marks, lower-case. -/
def fold_vietnamese (s : Str) : Str :=
  lowerStr
    ((expandWith nfkdChar ((fix_vietnamese_text s).map replaceD)).filter
      (fun c => ! combiningChar c))

/-- `normalize_query` from `text_processing.py`. -/
def normalize_query (q : Str) : Str × Str :=
  let qFixed := fix_vietnamese_text q
  (qFixed, fold_vietnamese qFixed)

/-! ## `backend/utils/url_helpers.py` — URL extraction and cleaning -/

/-- A character that terminates a `URL_RE` match: the regex is
`https?://[^\s)>\]"']+` so a URL run stops at whitespace, `)`, `>`, `]`,
a double quote or an apostrophe. -/
def isUrlStop (c : Char) : Bool :=
  isPySpace c || c = ')' || c = '>' || c = ']' || c = '"' || c = apos

/-- Case-insensitive match of the literal `pat` (given lower-case) at the
head of `l`; returns the remaining suffix. -/
def matchCI : Str → Str → Option Str
  | [], l => some l
  | _ :: _, [] => none
  | p :: ps, c :: cs => if lowerChar c = p then matchCI ps cs else none

/-- One attempted match of `URL_RE` anchored at the head of `l`:
`https?://` case-insensitively followed by one or more non-stop
characters.  Returns the matched run, which is a prefix of `l`. -/
def matchUrlAt (l : Str) : Option Str :=
  match l with
  | a :: b :: c :: d :: rest =>
    if lowerChar a = 'h' ∧ lowerChar b = 't' ∧ lowerChar c = 't' ∧ lowerChar d = 'p' then
      let sp : Str × Str :=
        match rest with
        | e :: rest2 => if lowerChar e = 's' then ([e], rest2) else ([], rest)
        | [] => ([], [])
      match sp.2 with
      | x :: y :: z :: rest3 =>
        if x = ':' ∧ y = '/' ∧ z = '/' then
          let body := rest3.takeWhile (fun ch => ¬ isUrlStop ch)
          if body = [] then none
          else some ([a, b, c, d] ++ sp.1 ++ [x, y, z] ++ body)
        else none
      | _ => none
    else none
  | _ => none

/-- `URL_RE.findall`: leftmost, non-overlapping matches, scanning left to
right (fuelled by the string length; each step consumes at least one
character). -/
def urlFindallAux : Nat → Str → List Str
  | 0, _ => []
  | _, [] => []
  | fuel + 1, c :: rest =>
    match matchUrlAt (c :: rest) with
    | some u => u :: urlFindallAux fuel ((c :: rest).drop u.length)
    | none => urlFindallAux fuel rest

/-- All `URL_RE` matches in `s`, in order. -/
def urlFindall (s : Str) : List Str := urlFindallAux s.length s

/-- One attempted match of the `HYPERLINK` formula pattern (ignoring case)
anchored at the head of `l`; returns the quoted group. -/
def matchHyperAt (l : Str) : Option Str := do
  let r1 ← matchCI ("hyperlink".data) l
  match r1.dropWhile isPySpace with
  | '(' :: r3 =>
    match r3.dropWhile isPySpace with
    | '"' :: r5 =>
      let grp := r5.takeWhile (· ≠ '"')
      if grp ≠ [] ∧ leadsWith ['"'] (r5.drop grp.length) then some grp
      else none
    | _ => none
  | _ => none

/-- `re.search` for the `HYPERLINK` pattern: the group of the leftmost
position at which the whole pattern matches. -/
def hyperSearch : Str → Option Str
  | [] => none
  | c :: rest =>
    match matchHyperAt (c :: rest) with
    | some g => some g
    | none => hyperSearch rest

/-- `u.split("#")[0].split("?")[0]`: the base form of a URL with fragment
and query stripped. -/
def urlBase (u : Str) : Str := (u.takeWhile (· ≠ '#')).takeWhile (· ≠ '?')

/-- The per-candidate clean-up of `clean_urls`:
strip whitespace, strip surrounding quote and bracket characters, strip
whitespace again. -/
def cleanOne (u : Str) : Str :=
  stripWs (stripChars ['"', ')', ']', '\x7d'] (stripWs u))

/-- The loop of `clean_urls`, threading the set of already-seen base
forms. -/
def cleanUrlsAux : List Str → List Str → List Str
  | _, [] => []
  | seen, u :: rest =>
    let u := cleanOne u
    if ¬ leadsWith ("http".data) u then cleanUrlsAux seen rest
    else
      let base := urlBase u
      if seen.contains base then cleanUrlsAux seen rest
      else u :: cleanUrlsAux (base :: seen) rest

/-- `clean_urls` from `url_helpers.py`: strip each candidate, keep those
that start with `http`, deduplicate by base form keeping the first
occurrence. -/
def clean_urls (us : List Str) : List Str := cleanUrlsAux [] us

/-- A character of the regex class `[a-zA-Z0-9_-]` used by the Google URL
identifier patterns. -/
def isIdChar (c : Char) : Bool :=
  (97 ≤ c.toNat && c.toNat ≤ 122) || (65 ≤ c.toNat && c.toNat ≤ 90) ||
  (48 ≤ c.toNat && c.toNat ≤ 57) || c = '_' || c = '-'

/-- An ASCII digit. -/
def isDigitCh (c : Char) : Bool := 48 ≤ c.toNat && c.toNat ≤ 57

/-- `re.search` for `lit` followed by a non-empty maximal run of `good`
characters: returns the run of the leftmost position where the whole
pattern matches. -/
def litRun (lit : Str) (good : Char → Bool) : Str → Option Str
  | [] => none
  | c :: rest =>
    let here :=
      if leadsWith lit (c :: rest) then
        let run := ((c :: rest).drop lit.length).takeWhile good
        if run = [] then none else some run
      else none
    match here with
    | some r => some r
    | none => litRun lit good rest

/-- `re.search` for `GID_RE`: a `#`, `?` or `&` followed by `gid=` and a
non-empty digit run; returns the digit run of the leftmost match. -/
def gidSearch : Str → Option Str
  | [] => none
  | c :: rest =>
    if (c = '#' ∨ c = '?' ∨ c = '&') ∧ leadsWith ("gid=".data) rest ∧
       (rest.drop 4).takeWhile isDigitCh ≠ [] then
      some ((rest.drop 4).takeWhile isDigitCh)
    else gidSearch rest

/-- The kind returned by `classify_google_url`. -/
inductive GKind : Type
  | docs : GKind
  | sheets : GKind
  | unknown : GKind
deriving DecidableEq, Repr

/-- `classify_google_url` from `url_helpers.py`: try the Docs id pattern,
then the Sheets id pattern (with optional gid), else `unknown`. -/
def classify_google_url (u : Str) : GKind × Option Str × Option Str :=
  match litRun ("docs.google.com/document/d/".data) isIdChar u with
  | some fid => (GKind.docs, some fid, none)
  | none =>
    match litRun ("docs.google.com/spreadsheets/d/".data) isIdChar u with
    | some fid => (GKind.sheets, some fid, gidSearch u)
    | none => (GKind.unknown, none, none)

/-! ## `extract_links_from_cell` from `index_service.py` -/

/-- `extract_links_from_cell` from `index_service.py`: `URL_RE` matches of
the value, then (if a formula is present) the quoted first argument of a
`HYPERLINK(` call — prefixed with `https://` when it lacks a scheme but
names a known Google domain — followed by the `URL_RE` matches of the
formula text, all passed through `clean_urls`. -/
def extract_links_from_cell (val fm : Str) : List Str :=
  let links1 := if val ≠ [] then urlFindall val else []
  let links2 :=
    if fm ≠ [] then
      (match hyperSearch fm with
       | some u =>
         [if ¬ leadsWith ("http".data) u ∧
             (containsSub ("docs.google.com".data) u ||
              containsSub ("drive.google.com".data) u)
          then ("https://".data) ++ u else u]
       | none => []) ++ urlFindall fm
    else []
  clean_urls (links1 ++ links2)

/-! ## `backend/services/index_service.py` — GridIndexer

`build_index` walks the worksheets of one spreadsheet.  The external data
source (gspread) is modelled by explicit inputs: `none` for an unreachable
source (no spreadsheet id, no gspread, no client, or a failing open), and
per-sheet `Option` matrices for the two reads that the code guards with
`try`/`except`.  The three mutable globals `DATABASE_ROWS`-to-be,
`LINK_POOL` and `LINK_POOL_LIST` are threaded as an explicit state; the
dictionary `LINK_POOL` (url → list of locations) is modelled as the list
of its occurrences in insertion order, read back through `poolLocsFor`. -/

/-- One location record stored in `LINK_POOL`.  The optional dict keys
`sheet_gid` and `sheet_name` are modelled as an `Option` and a possibly
empty string (the code only adds `sheet_name` when it is non-empty, so
absence and emptiness coincide). -/
structure Loc where
  sheet : Str
  row : Nat
  col : Nat
  address : Str
  gid : Option Str
  gname : Str
deriving DecidableEq, Repr

/-- One occurrence of the registry: a URL key together with one location
appended to `LINK_POOL[url]`. -/
structure PEntry where
  url : Str
  loc : Loc
deriving DecidableEq, Repr

/-- One record of the flat list `LINK_POOL_LIST`. -/
structure FlatEntry where
  url : Str
  sheet : Str
  row : Nat
  col : Nat
  address : Str
  gid : Option Str
  gname : Str
deriving DecidableEq, Repr

/-- One row record of the search index (`rows` in `build_index`). -/
structure RowRec where
  sheet : Str
  row : Nat
  cols : List Str
  text : Str
  links : List Str
deriving DecidableEq, Repr

/-- One deep-scan link occurrence, as produced by `deep_scan_all_sheets`
(an external API call whose result is an input of the model). -/
structure DeepOcc where
  url : Str
  row : Nat
  col : Nat
  address : Str
deriving DecidableEq, Repr

/-- One worksheet of the spreadsheet: its title, its `sheetId` property,
and the two guarded reads (`none` models the read raising). -/
structure SheetData where
  title : Str
  gid : Option Str
  valuesResult : Option (List (List Str))
  formulasResult : Option (List (List Str))
deriving DecidableEq, Repr

/-- The mutable state threaded through `build_index`: the row records,
the registry occurrences, the flat list, and the `seen_flat_keys` set
(kept as a list). -/
structure St where
  rows : List RowRec
  pool : List PEntry
  flat : List FlatEntry
  seen : List Str
deriving DecidableEq, Repr

/-- The value returned by one rebuild, together with the final link
registry state. -/
structure BIResult where
  rows : List RowRec
  sheets : List Str
  pool : List PEntry
  flat : List FlatEntry
deriving DecidableEq, Repr

/-- The string `COL_LETTERS` of `index_service.py`. -/
def colLetters : Str := "ABCDEFGHIJKLMNOPQRSTUVWXYZ".data

/-- The column-label loop of `_a1_addr`: repeatedly `divmod(c - 1, 26)`,
prepending the letter of each remainder (fuelled; the quotient is
strictly smaller than `c`). -/
def colLabelAux : Nat → Nat → Str
  | 0, _ => []
  | _, 0 => []
  | fuel + 1, c + 1 => colLabelAux fuel (c / 26) ++ [colLetters.getD (c % 26) 'A']

/-- The bijective base-26 column label of a 1-based column number. -/
def colLabel (c : Nat) : Str := colLabelAux c c

/-- Decimal digits of a natural number, most significant first
(Python's `f"{row}"`). -/
def natDigitsAux : Nat → Nat → Str
  | 0, _ => []
  | _, 0 => []
  | fuel + 1, n + 1 =>
    natDigitsAux fuel ((n + 1) / 10) ++ [("0123456789".data).getD ((n + 1) % 10) '0']

/-- Decimal representation of a natural number. -/
def natDigits (n : Nat) : Str := if n = 0 then ['0'] else natDigitsAux n n

/-- `_a1_addr` from `index_service.py`: column label then row number. -/
def a1_addr (row col : Nat) : Str := colLabel col ++ natDigits row

/-- The `gid → title` map built from the worksheet properties.  Python
dict assignment overwrites, so a lookup returns the value of the last
sheet that carries the gid. -/
def mkGidMap (ws : List SheetData) : List (Str × Str) :=
  ws.filterMap (fun s => s.gid.map (fun g => (g, s.title)))

/-- `gid_to_name.get(g, "")` with last-write-wins dictionary semantics. -/
def gidName (gm : List (Str × Str)) (g : Str) : Str :=
  (((gm.filter (fun p => p.1 = g)).map (fun p => p.2)).getLast?).getD []

/-- The flat-list deduplication key `f"{u}@@{a1}"`. -/
def flatKey (u a1v : Str) : Str := u ++ ("@@".data) ++ a1v

/-- `rows[i]["links"].append(u)` for a non-negative index, with the
`except: pass` of the source: an out-of-range index leaves `rows`
unchanged. -/
def addLinkAt : List RowRec → Nat → Str → List RowRec
  | [], _, _ => []
  | r :: rest, 0, u => { r with links := r.links ++ [u] } :: rest
  | r :: rest, n + 1, u => r :: addLinkAt rest n u

/-- `rows[i]["links"].append(u)` with Python's signed indexing: a negative
index counts from the end, and an index out of range on either side is
swallowed by the `except: pass`. -/
def addLinkPy (rows : List RowRec) (i : Int) (u : Str) : List RowRec :=
  if 0 ≤ i then
    if i < (rows.length : Int) then addLinkAt rows i.toNat u else rows
  else if 0 ≤ (rows.length : Int) + i then
    addLinkAt rows ((rows.length : Int) + i).toNat u
  else rows

/-- `" ".join` of a list of strings. -/
def joinSpace : List Str → Str
  | [] => []
  | [x] => x
  | x :: y :: rest => x ++ ' ' :: joinSpace (y :: rest)

/-- The row-packing loop of `build_index`: for each row index in order,
append a row record when some cell of the row is non-blank; the record's
`text` is the space-join of the row's string cells. -/
def packRows (title : Str) (values : List (List Str)) : List RowRec :=
  (List.range values.length).foldl
    (fun acc r =>
      let rowVals := values.getD r []
      if rowVals.any (fun cell => stripWs cell ≠ []) then
        acc ++ [⟨title, r + 1, rowVals, joinSpace rowVals, []⟩]
      else acc)
    []

/-- The sub-sheet id extracted by `classify_google_url(u)` (its third
component, `maybe_gid`). -/
def gidOf (u : Str) : Option Str := (classify_google_url u).2.2

/-- `gid_to_name.get(str(maybe_gid), "") if maybe_gid else ""`. -/
def snameOf (gm : List (Str × Str)) (u : Str) : Str :=
  match gidOf u with
  | some g => gidName gm g
  | none => []

/-- The locations currently stored under `LINK_POOL[u]`, in insertion
order. -/
def poolLocsFor (pool : List PEntry) (u : Str) : List Loc :=
  (pool.filter (fun e => e.url = u)).map (fun e => e.loc)

/-- The body of the primary pass for one URL extracted from the cell at
0-based `(r, c)`: classify, resolve the gid to a sheet name, append to the
registry, append to the flat list unless the `url@@address` key was seen,
and append the URL to the row record at `base + r`. -/
def primaryUrl (gm : List (Str × Str)) (title : Str) (r c base : Nat)
    (st : St) (u : Str) : St :=
  let a1v := a1_addr (r + 1) (c + 1)
  let st := { st with
    pool := st.pool ++ [PEntry.mk u (Loc.mk title (r + 1) (c + 1) a1v (gidOf u) (snameOf gm u))] }
  let k := flatKey u a1v
  let st :=
    if st.seen.contains k then st
    else { st with seen := st.seen ++ [k],
                   flat := st.flat ++
                     [FlatEntry.mk u title (r + 1) (c + 1) a1v (gidOf u) (snameOf gm u)] }
  { st with rows := addLinkAt st.rows (base + r) u }

/-- The primary pass for one cell: read the value and formula (missing
entries of the ragged matrices read as empty), extract its links and fold
`primaryUrl` over them. -/
def primaryCell (gm : List (Str × Str)) (title : Str)
    (values formulas : List (List Str)) (base : Nat)
    (st : St) (rc : Nat × Nat) : St :=
  let v := (values.getD rc.1 []).getD rc.2 []
  let fm := (formulas.getD rc.1 []).getD rc.2 []
  (extract_links_from_cell v fm).foldl (primaryUrl gm title rc.1 rc.2 base) st

/-- The cell iteration order of the primary pass:
`for r in range(nrows): for c in range(ncols)`. -/
def cellIdx (nrows ncols : Nat) : List (Nat × Nat) :=
  ((List.range nrows).map (fun r => (List.range ncols).map (fun c => (r, c)))).flatten

/-- The body of the deep pass for one occurrence: append to the registry
unless a location with this sheet and address is already stored under the
URL, append to the flat list unless the `url@@address` key was seen, and
append the URL to the row record at `base + (row - 1)` (Python signed
indexing). -/
def deepOccStep (gm : List (Str × Str)) (title : Str) (base : Nat)
    (st : St) (it : DeepOcc) : St :=
  let u := it.url
  let hit := (poolLocsFor st.pool u).any
    (fun l => l.sheet = title ∧ l.address = it.address)
  let st :=
    if hit then st
    else { st with pool := st.pool ++
      [PEntry.mk u (Loc.mk title it.row it.col it.address (gidOf u) (snameOf gm u))] }
  let k := flatKey u it.address
  let st :=
    if st.seen.contains k then st
    else { st with seen := st.seen ++ [k],
                   flat := st.flat ++
                     [FlatEntry.mk u title it.row it.col it.address (gidOf u) (snameOf gm u)] }
  { st with rows := addLinkPy st.rows ((base : Int) + ((it.row : Int) - 1)) u }

/-- Processing of one worksheet: skip it entirely when the values read
fails; otherwise treat a failing formulas read as an empty formula matrix,
pack the row records, run the primary pass over all cells, and run the
deep pass when enabled and the deep scan returned occurrences for this
title. -/
def processSheet (deep : Bool) (dm : List (Str × List DeepOcc))
    (gm : List (Str × Str)) (st : St) (s : SheetData) : St :=
  match s.valuesResult with
  | none => st
  | some values =>
    let nrows := values.length
    let ncols := (values.map List.length).foldr max 0
    let formulas := if 0 < nrows ∧ 0 < ncols then s.formulasResult.getD [] else []
    let base := st.rows.length
    let st := { st with rows := st.rows ++ packRows s.title values }
    let st := (cellIdx nrows ncols).foldl (primaryCell gm s.title values formulas base) st
    if deep then
      match dm.find? (fun p => p.1 = s.title) with
      | some p => p.2.foldl (deepOccStep gm s.title base) st
      | none => st
    else st

/-- `IndexService.build_index`: `none` input models an unreachable source
(missing id, missing gspread, failing client or failing open), which
yields an empty index; otherwise the registry is cleared and every
worksheet is processed in order.  The returned `sheets` list carries every
worksheet title (titles are appended before the guarded reads). -/
def build_index (input : Option (List SheetData)) (deep : Bool)
    (dm : List (Str × List DeepOcc)) : BIResult :=
  match input with
  | none => ⟨[], [], [], []⟩
  | some ws =>
    let gm := mkGidMap ws
    let st := ws.foldl (processSheet deep dm gm) ⟨[], [], [], []⟩
    ⟨st.rows, ws.map (fun s => s.title), st.pool, st.flat⟩

/-! ## `backend/services/search_service.py` — SearchEngine -/

/-- A character of the regex class `\w`, modelled for the ASCII repertoire
of folded text (letters, digits and the underscore). -/
def isWordChar (c : Char) : Bool :=
  (97 ≤ c.toNat && c.toNat ≤ 122) || (65 ≤ c.toNat && c.toNat ≤ 90) ||
  (48 ≤ c.toNat && c.toNat ≤ 57) || c = '_'

/-- Wordness of an optional character; the ends of the text count as
non-word. -/
def isWordO : Option Char → Bool
  | some c => isWordChar c
  | none => false

/-- A `\b` word boundary holds between two neighbouring positions exactly
when their wordness differs. -/
def wbOk (a b : Option Char) : Bool := isWordO a != isWordO b

/-- The regex `\btok\b` matches at the head of `l` (with `prev` the
character just before this position): `tok` is a prefix of `l` and both
ends of the match sit on word boundaries. -/
def wbMatchHere (tok : Str) (prev : Option Char) (l : Str) : Bool :=
  leadsWith tok l && wbOk prev tok.head? && wbOk tok.getLast? ((l.drop tok.length).head?)

/-- `re.search(rf"\b{re.escape(tok)}\b", text)` succeeds: scan every
position of `text`, tracking the previous character. -/
def wbSearchAux (tok : Str) : Option Char → Str → Bool
  | prev, [] => wbMatchHere tok prev []
  | prev, c :: rest => wbMatchHere tok prev (c :: rest) || wbSearchAux tok (some c) rest

/-- `tok` occurs in `text` as a whole word. -/
def wbSearch (tok text : Str) : Bool := wbSearchAux tok none text

/-- `re.split(r"\s+", s)`: pieces between maximal whitespace runs, with an
empty piece for a leading or trailing run.  `prevSep` records whether the
previous character belonged to a separator run, `acc` holds the current
piece reversed. -/
def splitWsAux : Bool → Str → Str → List Str
  | _, acc, [] => [acc.reverse]
  | prevSep, acc, c :: rest =>
    if isPySpace c then
      if prevSep then splitWsAux true acc rest
      else acc.reverse :: splitWsAux true [] rest
    else splitWsAux false (c :: acc) rest

/-- `_tokens` from `search_service.py`: whitespace-split the folded query
and keep the tokens of length at least two. -/
def searchTokens (qFold : Str) : List Str :=
  (splitWsAux false [] qFold).filter (fun t => 2 ≤ t.length)

/-- `_all_tokens_in_text` from `search_service.py`: every token of the
folded query occurs in the folded text as a whole word. -/
def all_tokens_in_text (qFold textFold : Str) : Bool :=
  (searchTokens qFold).all (fun tok => wbSearch tok textFold)

/-- Case-insensitive first-occurrence search, the semantics of
`re.search(re.escape(pat), s, flags=re.IGNORECASE)` for a literal
pattern. -/
def idxOfSubCI (pat s : Str) : Option Nat := idxOfSub (lowerStr pat) (lowerStr s)

/-- `_snippet` from `search_service.py`: repair and fold both the text and
the query, find the folded query inside the folded text, and cut the
window out of the repaired (un-folded) text; fall back to the first
`2*window` characters. -/
def snippet (s q : Str) (window : Nat) : Str :=
  let sFix := fix_vietnamese_text s
  let qFix := fix_vietnamese_text q
  let sFold := fold_vietnamese sFix
  let qFold := fold_vietnamese qFix
  match idxOfSubCI qFold sFold with
  | none => sFix.take (window * 2)
  | some i =>
    let left := i - window
    let right := min sFix.length (i + window)
    (sFix.drop left).take (right - left)

/-- Modelled from the spec: `fuzz.partial_ratio` of the external
`rapidfuzz` library (not part of this repository) is the spec's
"approximate partial-substring similarity metric bounded to [0, 100]".
The search functions below take it as an explicit parameter `ratioFn`. -/
def RatioFn : Type := Str → Str → Nat

/-- The per-row score of `SearchService.search_rows`: in exact mode 100
when all query tokens occur as whole words, else 0; in fuzzy mode 100 on a
substring hit of either the fixed pair (case-insensitively) or the folded
pair, else the maximum of the two `partial_ratio` calls. -/
def scoreRow (ratioFn : RatioFn) (exact : Bool)
    (qFixed qFold textFixed textFold : Str) : Nat :=
  if exact then
    if all_tokens_in_text qFold textFold then 100 else 0
  else
    if containsSub (lowerStr qFixed) (lowerStr textFixed) ||
       containsSub qFold textFold then 100
    else max (ratioFn qFixed textFixed) (ratioFn qFold textFold)

/-- One search hit. -/
structure Hit where
  sheet : Str
  row : Nat
  snip : Str
  snipNodau : Str
  links : List Str
  score : Nat
deriving DecidableEq, Repr

/-- Codepoint-wise lexicographic strict order on strings (Python's `<` on
`str`). -/
def strLt : Str → Str → Bool
  | [], [] => false
  | [], _ :: _ => true
  | _ :: _, [] => false
  | a :: xs, b :: ys =>
    if a.toNat < b.toNat then true
    else if a.toNat = b.toNat then strLt xs ys
    else false

/-- Deduplication keeping the first occurrence (the reading of Python's
`set` used under `sorted`, where order is irrelevant). -/
def dedupStr : List Str → List Str
  | [] => []
  | u :: rest => u :: (dedupStr rest).filter (fun v => v ≠ u)

/-- Insertion into a descending-by-`strLt`… ascending sorted list. -/
def insStr (u : Str) : List Str → List Str
  | [] => [u]
  | v :: rest => if strLt u v then u :: v :: rest else v :: insStr u rest

/-- `sorted(set(links))`. -/
def sortStr (l : List Str) : List Str := (dedupStr l).foldr insStr []

/-- Stable insertion for the descending sort of results: an element is
placed before every element of smaller or equal score, so earlier rows
keep their position among equal scores (`list.sort` with `reverse=True`
is stable). -/
def insHit (p : Nat × Hit) : List (Nat × Hit) → List (Nat × Hit)
  | [] => [p]
  | q :: rest => if q.1 ≤ p.1 then p :: q :: rest else q :: insHit p rest

/-- Descending stable sort by score. -/
def sortHits (l : List (Nat × Hit)) : List (Nat × Hit) := l.foldr insHit []

/-- `SearchService.search_rows`: empty or blank queries yield no hits;
otherwise every indexed row is scored, rows reaching the threshold (100 in
exact mode, `fuzzThreshold` otherwise) are kept with their two snippets
and their sorted deduplicated links, and the kept rows are returned in
descending score order truncated to `topK`. -/
def search_rows (ratioFn : RatioFn) (dbRows : List RowRec) (query : Str)
    (topK : Nat) (fuzzThreshold : Nat) (exact : Bool) : List Hit :=
  if stripWs query = [] then []
  else
    let qp := normalize_query query
    let results := dbRows.foldl
      (fun acc row =>
        let textFixed := fix_vietnamese_text row.text
        let textFold := fold_vietnamese textFixed
        let score := scoreRow ratioFn exact qp.1 qp.2 textFixed textFold
        if (if exact then 100 else fuzzThreshold) ≤ score then
          acc ++ [(score, Hit.mk row.sheet row.row
            (snippet textFixed qp.1 60) (snippet textFold qp.2 60)
            (sortStr row.links) score)]
        else acc)
      []
    ((sortHits results).take topK).map (fun p => p.2)

/-! ## Definitions supporting the claims

Spec-worded definitions (each follows the words of one claim, to be
compared with the source translation) and the invariant/decoding
definitions used by the proofs. -/

/-- The characters that `fold_vietnamese` can emit: NFKD-irreducible,
non-combining, lower-case fixed points, and not a stroked letter. -/
def GoodOut (c : Char) : Prop :=
  nfkdChar c = [c] ∧ combiningChar c = false ∧ lowerChar c = c ∧ c ≠ 'đ' ∧ c ≠ 'Đ'

/-- The candidate clean-up as claim C4 words it: candidates are "trimmed
of trailing punctuation/brackets" — trailing only. -/
def specTrimTrailing (u : Str) : Str :=
  (u.reverse.dropWhile (fun c => c = '"' ∨ c = ')' ∨ c = ']' ∨ c = '\x7d')).reverse

/-- `clean_urls` as claim C4 words it: trailing-trim each candidate,
filter to those that start with `http`, deduplicate by base form keeping
the first occurrence. -/
def specCleanUrlsAux : List Str → List Str → List Str
  | _, [] => []
  | seen, u :: rest =>
    let u := specTrimTrailing u
    if ¬ leadsWith ("http".data) u then specCleanUrlsAux seen rest
    else
      let base := urlBase u
      if seen.contains base then specCleanUrlsAux seen rest
      else u :: specCleanUrlsAux (base :: seen) rest

/-- The spec-worded clean-up, starting with nothing seen. -/
def specCleanUrls (us : List Str) : List Str := specCleanUrlsAux [] us

/-- `extractFromCell` as claim C4 words it: the same candidate discovery
as the source, with the spec's trailing-only trimming. -/
def specExtractLinks (val fm : Str) : List Str :=
  let links1 := if val ≠ [] then urlFindall val else []
  let links2 :=
    if fm ≠ [] then
      (match hyperSearch fm with
       | some u =>
         [if ¬ leadsWith ("http".data) u ∧
             (containsSub ("docs.google.com".data) u ||
              containsSub ("drive.google.com".data) u)
          then ("https://".data) ++ u else u]
       | none => []) ++ urlFindall fm
    else []
  specCleanUrls (links1 ++ links2)

/-- `_snippet` as claim C5 words it: on a hit at offset `i` the window of
the fixed text spans `[i - window, i + len(query) + window]`, clipped. -/
def specSnippet (s q : Str) (window : Nat) : Str :=
  let sFix := fix_vietnamese_text s
  let qFix := fix_vietnamese_text q
  let sFold := fold_vietnamese sFix
  let qFold := fold_vietnamese qFix
  match idxOfSubCI qFold sFold with
  | none => sFix.take (window * 2)
  | some i =>
    let left := i - window
    let right := min sFix.length (i + qFold.length + window)
    (sFix.drop left).take (right - left)

/-- The row text as claim C2 words it: the space-join of the NON-blank
string cells of the row. -/
def specRowText (cells : List Str) : Str :=
  joinSpace (cells.filter (fun cell => stripWs cell ≠ []))

/-- The per-row score as claim C6 words it: exact mode scores 100 exactly
when every whitespace token of the folded query of length at least two
occurs in the folded row text as a whole word; fuzzy mode scores 100 on a
substring hit of the fixed pair (case-insensitively) or the folded pair,
else the maximum of the partial-substring similarities of the two
pairs. -/
def specScore (ratioFn : RatioFn) (exactM : Bool)
    (qFixed qFold textFixed textFold : Str) : Nat :=
  if exactM then
    if (searchTokens qFold).all (fun tok => wbSearch tok textFold) then 100 else 0
  else
    if containsSub (lowerStr qFixed) (lowerStr textFixed) ||
       containsSub qFold textFold then 100
    else max (ratioFn qFixed textFixed) (ratioFn qFold textFold)

/-- The flat-list invariant of one rebuild: every flat entry's
deduplication key is among the seen keys, and the keys of the flat list
are pairwise distinct. -/
def FlatInv (st : St) : Prop :=
  (∀ e ∈ st.flat, flatKey e.url e.address ∈ st.seen) ∧
  st.flat.Pairwise (fun e1 e2 => flatKey e1.url e1.address ≠ flatKey e2.url e2.address)

/-- Decode a column label back to its column number (bijective base 26). -/
def decode26 (l : Str) : Nat :=
  l.foldl (fun acc ch => acc * 26 + (colLetters.indexOf ch + 1)) 0

/-- Decode a decimal digit string back to its number. -/
def decode10 (l : Str) : Nat :=
  l.foldl (fun acc ch => acc * 10 + ("0123456789".data).indexOf ch) 0

/-- An upper-case ASCII letter. -/
def isUpperAlphaCh (c : Char) : Bool := 65 ≤ c.toNat && c.toNat ≤ 90

/-- No two registry occurrences share the same URL, sheet and address. -/
def PoolOK (pool : List PEntry) : Prop :=
  pool.Pairwise (fun e1 e2 =>
    ¬ (e1.url = e2.url ∧ e1.loc.sheet = e2.loc.sheet ∧ e1.loc.address = e2.loc.address))

/-- The invariant carried through one sheet's primary pass: the pool has
no duplicate (url, sheet, address) triple, and no pool occurrence of the
current sheet uses an address of a still-unprocessed cell. -/
def SheetAddrsOK (title : Str) (addrs : List Str) (pool : List PEntry) : Prop :=
  PoolOK pool ∧ ∀ e ∈ pool, e.loc.sheet = title → e.loc.address ∉ addrs

/-! ## Supporting lemmas about characters and folding -/

theorem toNat_ofNat_small {n : Nat} (h : n < 55296) : (Char.ofNat n).toNat = n := by
  have hv : n.isValidChar := Or.inl h
  simp [Char.ofNat, hv, Char.ofNatAux, Char.toNat, UInt32.toNat]

theorem ne_of_toNat_ne {a b : Char} (h : a.toNat ≠ b.toNat) : a ≠ b :=
  fun he => h (congrArg Char.toNat he)

theorem good_lower_ascii {e : Char} (h1 : 97 ≤ e.toNat) (h2 : e.toNat ≤ 122) :
    GoodOut e := by
  have hne : ∀ x : Char, 122 < x.toNat → e ≠ x := fun x hx => ne_of_toNat_ne (by omega)
  refine ⟨?_, ?_, ?_, hne _ (by decide), hne _ (by decide)⟩
  · unfold nfkdChar
    rw [if_neg (hne _ (by decide)), if_neg (hne _ (by decide)),
      if_neg (hne _ (by decide)), if_neg (hne _ (by decide))]
  · simp [combiningChar, hne mGrave (by decide), hne mAcute (by decide),
      hne mTilde (by decide), hne mBreve (by decide), hne mHook (by decide),
      hne mDotB (by decide)]
  · unfold lowerChar
    rw [if_neg (by omega), if_neg (hne _ (by decide))]

theorem nfkdChar_out {c d : Char} (hd : d ∈ nfkdChar c) (h1 : c ≠ 'đ') (h2 : c ≠ 'Đ')
    (hcomb : combiningChar d = false) :
    nfkdChar d = [d] ∧ d ≠ 'đ' ∧ d ≠ 'Đ' := by
  by_cases e1 : c = 'à'
  · subst e1
    have hv : nfkdChar 'à' = ['a', mGrave] := by decide
    rw [hv] at hd
    rcases List.mem_cons.mp hd with rfl | hd
    · exact ⟨by decide, by decide, by decide⟩
    · rcases List.mem_singleton.mp hd with rfl
      exact absurd hcomb (by decide)
  by_cases e2 : c = 'ẵ'
  · subst e2
    have hv : nfkdChar 'ẵ' = ['a', mBreve, mTilde] := by decide
    rw [hv] at hd
    rcases List.mem_cons.mp hd with rfl | hd
    · exact ⟨by decide, by decide, by decide⟩
    rcases List.mem_cons.mp hd with rfl | hd
    · exact absurd hcomb (by decide)
    rcases List.mem_singleton.mp hd with rfl
    exact absurd hcomb (by decide)
  by_cases e3 : c = 'ă'
  · subst e3
    have hv : nfkdChar 'ă' = ['a', mBreve] := by decide
    rw [hv] at hd
    rcases List.mem_cons.mp hd with rfl | hd
    · exact ⟨by decide, by decide, by decide⟩
    rcases List.mem_singleton.mp hd with rfl
    exact absurd hcomb (by decide)
  by_cases e4 : c = '\u2002'
  · subst e4
    have hv : nfkdChar '\u2002' = [' '] := by decide
    rw [hv] at hd
    rcases List.mem_singleton.mp hd with rfl
    exact ⟨by decide, by decide, by decide⟩
  have hnf : nfkdChar c = [c] := by
    unfold nfkdChar
    rw [if_neg e1, if_neg e2, if_neg e3, if_neg e4]
  rw [hnf] at hd
  rcases List.mem_singleton.mp hd with rfl
  exact ⟨hnf, h1, h2⟩

theorem goodOut_lower {d : Char} (hn : nfkdChar d = [d]) (hc : combiningChar d = false)
    (h1 : d ≠ 'đ') (h2 : d ≠ 'Đ') : GoodOut (lowerChar d) := by
  by_cases h : 65 ≤ d.toNat ∧ d.toNat ≤ 90
  · have he : (lowerChar d).toNat = d.toNat + 32 := by
      unfold lowerChar
      rw [if_pos h, toNat_ofNat_small (by omega)]
    exact good_lower_ascii (by omega) (by omega)
  · have hl : lowerChar d = d := by
      unfold lowerChar
      rw [if_neg h, if_neg h2]
    rw [hl]
    exact ⟨hn, hc, hl, h1, h2⟩

theorem replaceD_ne (c : Char) : replaceD c ≠ 'đ' ∧ replaceD c ≠ 'Đ' := by
  unfold replaceD
  by_cases h1 : c = 'đ'
  · rw [if_pos h1]; exact ⟨by decide, by decide⟩
  · rw [if_neg h1]
    by_cases h2 : c = 'Đ'
    · rw [if_pos h2]; exact ⟨by decide, by decide⟩
    · rw [if_neg h2]; exact ⟨h1, h2⟩

theorem replaceD_eq_self {c : Char} (h1 : c ≠ 'đ') (h2 : c ≠ 'Đ') : replaceD c = c := by
  unfold replaceD
  rw [if_neg h1, if_neg h2]

/-- Every character that `fold_vietnamese` emits is a good output
character. -/
theorem fold_chars_good (s : Str) : ∀ c ∈ fold_vietnamese s, GoodOut c := by
  intro c hc
  unfold fold_vietnamese lowerStr at hc
  rcases List.mem_map.mp hc with ⟨d, hd, rfl⟩
  have hfil := List.mem_filter.mp hd
  have hcomb : combiningChar d = false := by
    have := hfil.2
    simpa using this
  have hmem := hfil.1
  unfold expandWith at hmem
  rcases List.mem_flatten.mp hmem with ⟨l, hl, hdl⟩
  rcases List.mem_map.mp hl with ⟨e, he, rfl⟩
  rcases List.mem_map.mp he with ⟨e0, _, rfl⟩
  have hrep := replaceD_ne e0
  have hout := nfkdChar_out hdl hrep.1 hrep.2 hcomb
  exact goodOut_lower hout.1 hcomb hout.2.1 hout.2.2

theorem map_id_of {f : Char → Char} {l : Str} (h : ∀ c ∈ l, f c = c) :
    l.map f = l := by
  calc l.map f = l.map id := List.map_congr_left h
  _ = l := List.map_id l

theorem expand_id_of {l : Str} (h : ∀ c ∈ l, nfkdChar c = [c]) :
    expandWith nfkdChar l = l := by
  induction l with
  | nil => rfl
  | cons c t ih =>
    have hc := h c (List.mem_cons_self c t)
    have ht := ih (fun d hd => h d (List.mem_cons_of_mem c hd))
    simp only [expandWith, List.map_cons, List.flatten_cons] at *
    rw [hc, ht]
    rfl

/-! ## Claims C8 and C9 -/

/-- C8: `fold` replaces the Vietnamese stroked letter `đ`/`Đ` (both cases)
with plain `d`/`D`, applies a compatibility decomposition, drops every
combining mark, and lower-cases the result; in particular
`fold("Đà Nẵng") = "da nang"`, and — as the description implies — no
output of `fold` retains a combining mark or an upper-case letter. -/
theorem c8_fold_danang :
    fold_vietnamese ("Đà Nẵng".data) = ("da nang".data) ∧
    ∀ s : Str, (fold_vietnamese s).all
      (fun c => !combiningChar c && (lowerChar c == c)) = true := by
  refine ⟨by decide, fun s => ?_⟩
  rw [List.all_eq_true]
  intro c hc
  have hg := fold_chars_good s c hc
  simp [hg.2.1, hg.2.2.1]

/-- C9 counterexample: `fold` is not idempotent.  On `"a  b"`
(two en-spaces), the first fold turns the en-spaces into two plain spaces,
and the second fold's repair pipeline collapses the double space, so
`fold(fold(x)) ≠ fold(x)`. -/
theorem c9_fold_not_idem_cex :
    fold_vietnamese (fold_vietnamese ("a  b".data)) ≠
      fold_vietnamese ("a  b".data) := by decide

/-- C9 (amended): `fold` is idempotent on every input whose fold is a
fixed point of the repair pipeline `fix_vietnamese_text`; the un-amended
claim fails because folding can create whitespace (from compatibility
space characters) that the second repair pass normalises away. -/
theorem c9_fold_idem_of_fixed (x : Str)
    (h : fix_vietnamese_text (fold_vietnamese x) = fold_vietnamese x) :
    fold_vietnamese (fold_vietnamese x) = fold_vietnamese x := by
  have hg' : ∀ c ∈ fold_vietnamese x, GoodOut c := fold_chars_good x
  have h1 : (fold_vietnamese x).map replaceD = fold_vietnamese x :=
    map_id_of (fun c hc => replaceD_eq_self (hg' c hc).2.2.2.1 (hg' c hc).2.2.2.2)
  have h2 : expandWith nfkdChar (fold_vietnamese x) = fold_vietnamese x :=
    expand_id_of (fun c hc => (hg' c hc).1)
  have h3 : (fold_vietnamese x).filter (fun c => ! combiningChar c) =
      fold_vietnamese x :=
    List.filter_eq_self.mpr (fun c hc => by simp [(hg' c hc).2.1])
  have h4 : lowerStr (fold_vietnamese x) = fold_vietnamese x :=
    map_id_of (fun c hc => (hg' c hc).2.2.1)
  conv_lhs => rw [fold_vietnamese]
  rw [h, h1, h2, h3]
  exact h4

/-- C9 witness: `"Đà Nẵng"` satisfies the hypothesis and the conclusion. -/
theorem c9_fold_idem_of_fixed_witness :
    fix_vietnamese_text (fold_vietnamese ("Đà Nẵng".data)) =
      fold_vietnamese ("Đà Nẵng".data) ∧
    fold_vietnamese (fold_vietnamese ("Đà Nẵng".data)) =
      fold_vietnamese ("Đà Nẵng".data) :=
  ⟨by decide, c9_fold_idem_of_fixed _ (by decide)⟩

/-! ## Claim C4 -/

theorem contains_iff_memS {l : List Str} {a : Str} : l.contains a = true ↔ a ∈ l := by
  simp [List.contains_eq_any_beq, List.any_eq_true, beq_iff_eq]

/-- C4 counterexample: the code does not trim trailing characters only —
`clean_urls` strips quotes, brackets and whitespace from BOTH ends.  On
the formula `=HYPERLINK(")http://a.com x")` the code strips the leading
`)` from the quoted argument and returns two URLs (the first even
containing a space), while the claim's trailing-only trimming would
discard that candidate and return one. -/
theorem c4_extract_links_cex :
    extract_links_from_cell [] ("=HYPERLINK(\")http://a.com x\")".data) ≠
      specExtractLinks [] ("=HYPERLINK(\")http://a.com x\")".data) := by decide

/-- The invariant of the `clean_urls` loop: every output starts with
`http`, no output's base form was already seen, and base forms are
pairwise distinct. -/
theorem cleanUrlsAux_props (us : List Str) : ∀ seen : List Str,
    (∀ u ∈ cleanUrlsAux seen us,
        leadsWith ("http".data) u = true ∧ urlBase u ∉ seen) ∧
    (cleanUrlsAux seen us).Pairwise (fun u1 u2 => urlBase u1 ≠ urlBase u2) := by
  induction us with
  | nil =>
    intro seen
    constructor
    · intro u hu; simp [cleanUrlsAux] at hu
    · simp [cleanUrlsAux]
  | cons u rest ih =>
    intro seen
    by_cases h1 : leadsWith ("http".data) (cleanOne u) = true
    · by_cases h2 : urlBase (cleanOne u) ∈ seen
      · have hc : seen.contains (urlBase (cleanOne u)) = true := contains_iff_memS.mpr h2
        have hred : cleanUrlsAux seen (u :: rest) = cleanUrlsAux seen rest := by
          simp only [cleanUrlsAux]
          rw [if_neg (fun hcon => hcon h1), if_pos hc]
        rw [hred]
        exact ih seen
      · have hc : ¬ (seen.contains (urlBase (cleanOne u)) = true) :=
          fun hcon => h2 (contains_iff_memS.mp hcon)
        have hred : cleanUrlsAux seen (u :: rest) =
            cleanOne u :: cleanUrlsAux (urlBase (cleanOne u) :: seen) rest := by
          simp only [cleanUrlsAux]
          rw [if_neg (fun hcon => hcon h1), if_neg hc]
        rw [hred]
        have ih' := ih (urlBase (cleanOne u) :: seen)
        constructor
        · intro v hv
          rcases List.mem_cons.mp hv with rfl | hv
          · exact ⟨h1, h2⟩
          · have := ih'.1 v hv
            exact ⟨this.1, fun hmem => this.2 (List.mem_cons_of_mem _ hmem)⟩
        · rw [List.pairwise_cons]
          constructor
          · intro v hv heq
            exact (ih'.1 v hv).2 (heq ▸ List.mem_cons_self _ _)
          · exact ih'.2
    · have hred : cleanUrlsAux seen (u :: rest) = cleanUrlsAux seen rest := by
        simp only [cleanUrlsAux]
        rw [if_pos (fun hcon => h1 hcon)]
      rw [hred]
      exact ih seen

/-- C4 (amended): `extract_links_from_cell` trims each discovered
candidate of surrounding whitespace and of quote/bracket characters at
BOTH ends (not only trailing), filters to candidates that then start with
`http`, and deduplicates by base form (query and fragment stripped)
keeping the first occurrence: every returned URL starts with `http`, base
forms are pairwise distinct, and the claim's example returns exactly the
first URL. -/
theorem c4_extract_links_amended :
    (∀ val fm : Str,
      (∀ u ∈ extract_links_from_cell val fm, leadsWith ("http".data) u = true) ∧
      (extract_links_from_cell val fm).Pairwise
        (fun u1 u2 => urlBase u1 ≠ urlBase u2)) ∧
    extract_links_from_cell ("http://x.com/a?x=1 http://x.com/a?y=2".data) [] =
      [("http://x.com/a?x=1".data)] := by
  refine ⟨fun val fm => ?_, by decide⟩
  have h := cleanUrlsAux_props
    ((if val ≠ [] then urlFindall val else []) ++
      (if fm ≠ [] then
        (match hyperSearch fm with
         | some u =>
           [if ¬ leadsWith ("http".data) u ∧
               (containsSub ("docs.google.com".data) u ||
                containsSub ("drive.google.com".data) u)
            then ("https://".data) ++ u else u]
         | none => []) ++ urlFindall fm
      else [])) []
  exact ⟨fun u hu => (h.1 u hu).1, h.2⟩

/-! ## Claim C5 -/

/-- C5 counterexample: the snippet window does not extend by the query
length.  On text `"abcdef"`, query `"cd"`, window 1, the code returns
`"bc"` (right bound `i + window`), while the claim's
`[i - window, i + len(query) + window]` would give `"bcde"`. -/
theorem c5_snippet_cex :
    snippet ("abcdef".data) ("cd".data) 1 ≠
      specSnippet ("abcdef".data) ("cd".data) 1 := by decide

/-- C5 (amended): the snippet searches the folded query in the folded
text case-insensitively; on a hit at offset `i` it returns the slice
`[i - window, i + window)` of the fixed text (the query length is NOT
added to the right bound), clipped to the text; on a miss it returns the
first `2*window` characters of the fixed text. -/
theorem c5_snippet_amended (s q : Str) (window i : Nat)
    (h : idxOfSubCI (fold_vietnamese (fix_vietnamese_text q))
          (fold_vietnamese (fix_vietnamese_text s)) = some i) :
    (snippet s q window =
      ((fix_vietnamese_text s).drop (i - window)).take
        (min (fix_vietnamese_text s).length (i + window) - (i - window))) ∧
    ∀ s2 q2 w2,
      idxOfSubCI (fold_vietnamese (fix_vietnamese_text q2))
          (fold_vietnamese (fix_vietnamese_text s2)) = none →
      snippet s2 q2 w2 = (fix_vietnamese_text s2).take (w2 * 2) := by
  constructor
  · simp only [snippet]
    rw [h]
  · intro s2 q2 w2 h2
    simp only [snippet]
    rw [h2]

/-- C5 witness: concrete hit discharging the hypothesis. -/
theorem c5_snippet_amended_witness :
    idxOfSubCI (fold_vietnamese (fix_vietnamese_text ("cd".data)))
        (fold_vietnamese (fix_vietnamese_text ("abcdef".data))) = some 2 ∧
    snippet ("abcdef".data) ("cd".data) 1 =
      ((fix_vietnamese_text ("abcdef".data)).drop (2 - 1)).take
        (min (fix_vietnamese_text ("abcdef".data)).length (2 + 1) - (2 - 1)) :=
  ⟨by decide, (c5_snippet_amended ("abcdef".data) ("cd".data) 1 2 (by decide)).1⟩

/-! ## Claim C2 -/

/-- C2 counterexample: on the single row `["a", "", "b"]` the code's
record text is `"a  b"` — ALL string cells are joined, blank ones
included — while the claim's "space-joined non-blank string cell values"
would give `"a b"`. -/
theorem c2_rowtext_cex :
    (build_index
        (some [⟨("S".data), none, some [[['a'], [], ['b']]], none⟩])
        false []).rows.map (fun r => r.text) ≠
      [specRowText [['a'], [], ['b']]] := by decide

theorem foldl_ext_mem {α β : Type} (f g : β → α → β) (l : List α)
    (h : ∀ b a, a ∈ l → f b a = g b a) : ∀ b, l.foldl f b = l.foldl g b := by
  induction l with
  | nil => intro b; rfl
  | cons x xs ih =>
    intro b
    rw [List.foldl_cons, List.foldl_cons, h b x (List.mem_cons_self x xs)]
    exact ih (fun b a ha => h b a (List.mem_cons_of_mem x ha)) _

/-- C2 (amended): a row record is created exactly for the rows with at
least one non-blank cell, in row order, and its text is the space-join of
ALL the row's cells (blank cells included). -/
theorem c2_packRows_amended (title : Str) (values : List (List Str)) :
    packRows title values =
      (values.enum.filter (fun p => p.2.any (fun cell => stripWs cell ≠ []))).map
        (fun p => RowRec.mk title (p.1 + 1) p.2 (joinSpace p.2) []) := by
  induction values using List.reverseRecOn with
  | nil => rfl
  | append_singleton vs v ih =>
    unfold packRows
    rw [List.length_append, List.length_singleton, List.range_succ, List.foldl_append]
    have hstep : (List.range vs.length).foldl
        (fun acc r =>
          let rowVals := (vs ++ [v]).getD r []
          if rowVals.any (fun cell => stripWs cell ≠ []) then
            acc ++ [RowRec.mk title (r + 1) rowVals (joinSpace rowVals) []]
          else acc) ([] : List RowRec) =
        (List.range vs.length).foldl
        (fun acc r =>
          let rowVals := vs.getD r []
          if rowVals.any (fun cell => stripWs cell ≠ []) then
            acc ++ [RowRec.mk title (r + 1) rowVals (joinSpace rowVals) []]
          else acc) ([] : List RowRec) := by
      apply foldl_ext_mem
      intro b r hr
      have hlt : r < vs.length := List.mem_range.mp hr
      simp only [List.getD_append _ _ _ _ hlt]
    rw [hstep]
    have hpack : (List.range vs.length).foldl
        (fun acc r =>
          let rowVals := vs.getD r []
          if rowVals.any (fun cell => stripWs cell ≠ []) then
            acc ++ [RowRec.mk title (r + 1) rowVals (joinSpace rowVals) []]
          else acc) ([] : List RowRec) = packRows title vs := rfl
    rw [hpack, ih]
    have hget : (vs ++ [v]).getD vs.length [] = v := by
      rw [List.getD_append_right _ _ _ _ (Nat.le_refl _)]
      simp
    rw [List.foldl_cons, List.foldl_nil, hget]
    rw [List.enum_append, List.enumFrom_cons, List.enumFrom_nil,
      List.filter_append, List.map_append]
    by_cases hv : v.any (fun cell => stripWs cell ≠ []) = true
    · rw [if_pos hv]
      have hv' : ∃ x ∈ v, ¬ stripWs x = [] := by simpa using hv
      simp [List.filter_cons, hv']
    · rw [if_neg hv]
      simp only [List.filter_cons, List.filter_nil]
      have hvf : (v.any fun cell => decide (stripWs cell ≠ [])) = false := by
        revert hv
        cases v.any fun cell => decide (stripWs cell ≠ []) <;> simp
      rw [if_neg (by simpa using hvf)]
      simp

/-! ## Claim C3 -/

/-- C3: the code evaluated at the failing input.  One sheet whose first
row is blank: the URL sitting in sheet row 2 is appended to the record of
sheet row 3, because `rows[base_row_index + r]` does not account for the
skipped blank row; the record of row 2 receives nothing.  This
contradicts the claim (and the spec's "append the URL to the owning
RowRecord"), whose intent the rest of the code clearly shares. -/
theorem c3_link_on_wrong_row :
    (build_index
        (some [⟨("S".data), none,
          some [[[]], [("http://x.com".data)], [['y']]], none⟩])
        false []).rows.map (fun r => (r.row, r.links)) =
      [(2, []), (3, [("http://x.com".data)])] := by decide

/-! ## Claim C7 -/

/-- C7 counterexample: a sheet whose formulas read fails is NOT skipped.
With a readable value matrix `[["x"]]` and a failing formulas read, the
rebuild still creates the sheet's row record, contradicting the claim's
"if a sheet's values or formulas cannot be read, that sheet is
skipped". -/
theorem c7_formulas_fail_cex :
    (build_index (some [⟨("S".data), none, some [[['x']]], none⟩]) false []).rows =
      [RowRec.mk ("S".data) 1 [['x']] ['x'] []] ∧
    (build_index (some [⟨("S".data), none, some [[['x']]], none⟩]) false []).rows ≠
      [] := ⟨by decide, by decide⟩

/-- C7 (amended): (a) an unreachable source yields an empty index; (b) a
sheet whose VALUES read fails contributes nothing to the rows, the
registry or the flat list — only its title is still recorded; (c) a sheet
whose FORMULAS read fails is still indexed, exactly as if its formula
matrix were empty. -/
theorem c7_failure_semantics :
    (∀ deep dm, build_index none deep dm = BIResult.mk [] [] [] []) ∧
    (∀ pre post title fr deep dm,
      build_index (some (pre ++ SheetData.mk title none none fr :: post)) deep dm =
        BIResult.mk (build_index (some (pre ++ post)) deep dm).rows
          ((pre ++ SheetData.mk title none none fr :: post).map (fun s => s.title))
          (build_index (some (pre ++ post)) deep dm).pool
          (build_index (some (pre ++ post)) deep dm).flat) ∧
    (∀ pre post title gid vals deep dm,
      build_index (some (pre ++ SheetData.mk title gid (some vals) none :: post)) deep dm =
        build_index
          (some (pre ++ SheetData.mk title gid (some vals) (some []) :: post)) deep dm) := by
  refine ⟨fun deep dm => rfl, ?_, ?_⟩
  · intro pre post title fr deep dm
    have hgm : mkGidMap (pre ++ SheetData.mk title none none fr :: post) =
        mkGidMap (pre ++ post) := by
      simp [mkGidMap, List.filterMap_append]
    have hfold : ∀ (gm : List (Str × Str)) (st : St),
        (pre ++ SheetData.mk title none none fr :: post).foldl
          (processSheet deep dm gm) st =
        (pre ++ post).foldl (processSheet deep dm gm) st := by
      intro gm st
      rw [List.foldl_append, List.foldl_append, List.foldl_cons]
      rfl
    simp only [build_index]
    rw [hgm, hfold]
  · intro pre post title gid vals deep dm
    have hgm : mkGidMap (pre ++ SheetData.mk title gid (some vals) none :: post) =
        mkGidMap (pre ++ SheetData.mk title gid (some vals) (some []) :: post) := by
      cases gid <;> simp [mkGidMap, List.filterMap_append, List.filterMap_cons]
    have hps : ∀ (gm : List (Str × Str)) (st : St),
        processSheet deep dm gm st (SheetData.mk title gid (some vals) none) =
        processSheet deep dm gm st (SheetData.mk title gid (some vals) (some [])) := by
      intro gm st
      simp only [processSheet, Option.getD_none, Option.getD_some]
    have hfold : ∀ (gm : List (Str × Str)) (st : St),
        (pre ++ SheetData.mk title gid (some vals) none :: post).foldl
          (processSheet deep dm gm) st =
        (pre ++ SheetData.mk title gid (some vals) (some []) :: post).foldl
          (processSheet deep dm gm) st := by
      intro gm st
      rw [List.foldl_append, List.foldl_append, List.foldl_cons, List.foldl_cons, hps]
    simp only [build_index]
    rw [hgm, hfold]
    simp

/-- C7 witness for the amended statement is not needed (no hypotheses),
but the unreachable-source clause evaluated concretely: a source
reporting no sheets yields an index with no rows and no links. -/
theorem c7_zero_sheets :
    build_index (some []) false [] = BIResult.mk [] [] [] [] := by decide

/-! ## Claim C6 -/

/-- C6: for every row, the score computed by `search_rows` (via
`scoreRow`) equals the spec's description, and — with the similarity
metric bounded by 100, as the spec states — the score is bounded by 100.
The concrete conjuncts exercise the whole-word requirement of exact mode:
query `"nguyen van"` scores 100 against `"nguyen van an"` but 0 against
`"truongnguyen van x"` — the token `"nguyen"` must not match inside the
larger word `"truongnguyen"`. -/
theorem c6_score (ratioFn : RatioFn) (hb : ∀ a b, ratioFn a b ≤ 100) :
    (∀ exactM qFixed qFold textFixed textFold,
      scoreRow ratioFn exactM qFixed qFold textFixed textFold =
        specScore ratioFn exactM qFixed qFold textFixed textFold ∧
      scoreRow ratioFn exactM qFixed qFold textFixed textFold ≤ 100) ∧
    scoreRow ratioFn true ("nguyen van".data) ("nguyen van".data)
      ("nguyen van an".data) ("nguyen van an".data) = 100 ∧
    scoreRow ratioFn true ("nguyen van".data) ("nguyen van".data)
      ("truongnguyen van x".data) ("truongnguyen van x".data) = 0 := by
  refine ⟨fun exactM qFixed qFold textFixed textFold => ⟨rfl, ?_⟩, ?_, ?_⟩
  · unfold scoreRow
    split
    · split
      · omega
      · omega
    · split
      · omega
      · exact Nat.max_le.mpr ⟨hb _ _, hb _ _⟩
  · have h : all_tokens_in_text ("nguyen van".data) ("nguyen van an".data) = true := by
      decide
    simp [scoreRow, h]
  · have h : all_tokens_in_text ("nguyen van".data) ("truongnguyen van x".data) = false := by
      decide
    simp [scoreRow, h]

/-- C6 witness: the everywhere-zero metric is bounded by 100, and the
theorem applies to it. -/
theorem c6_score_witness :
    (∀ a b : Str, (fun _ _ => (0 : Nat)) a b ≤ 100) ∧
    scoreRow (fun _ _ => (0 : Nat)) true ("nguyen van".data) ("nguyen van".data)
      ("nguyen van an".data) ("nguyen van an".data) = 100 :=
  ⟨fun _ _ => by simp,
   (c6_score (fun _ _ => (0 : Nat)) (fun _ _ => by simp)).2.1⟩

/-! ## Claim C10 -/

/-- The guarded flat-list append of `build_index` (both passes share its
shape) preserves the flat-list invariant. -/
theorem flatInv_guard {st st' : St} (h : FlatInv st) {k : Str} {e : FlatEntry}
    (hke : flatKey e.url e.address = k)
    (hcases : (st'.seen = st.seen ∧ st'.flat = st.flat) ∨
              (st'.seen = st.seen ++ [k] ∧ st'.flat = st.flat ++ [e] ∧
               st.seen.contains k = false)) :
    FlatInv st' := by
  rcases hcases with ⟨hs, hf⟩ | ⟨hs, hf, hnk⟩
  · constructor
    · intro x hx
      rw [hf] at hx
      rw [hs]
      exact h.1 x hx
    · rw [hf]
      exact h.2
  · constructor
    · intro x hx
      rw [hf] at hx
      rw [hs]
      rcases List.mem_append.mp hx with hx | hx
      · exact List.mem_append_left _ (h.1 x hx)
      · rcases List.mem_singleton.mp hx with rfl
        rw [hke]
        exact List.mem_append_right _ (List.mem_singleton_self k)
    · rw [hf, List.pairwise_append]
      refine ⟨h.2, by simp, ?_⟩
      intro x hx y hy
      rcases List.mem_singleton.mp hy with rfl
      rw [hke]
      intro heq
      have hmem : k ∈ st.seen := heq ▸ h.1 x hx
      have hcon := contains_iff_memS.mpr hmem
      rw [hnk] at hcon
      exact Bool.false_ne_true hcon

theorem flatInv_primaryUrl {st : St} (h : FlatInv st)
    (gm : List (Str × Str)) (title : Str) (r c base : Nat) (u : Str) :
    FlatInv (primaryUrl gm title r c base st u) := by
  by_cases hk : flatKey u (a1_addr (r + 1) (c + 1)) ∈ st.seen
  · refine flatInv_guard h (k := flatKey u (a1_addr (r + 1) (c + 1)))
      (e := FlatEntry.mk u title (r + 1) (c + 1) (a1_addr (r + 1) (c + 1))
        (gidOf u) (snameOf gm u)) rfl (Or.inl ?_)
    constructor <;> simp [primaryUrl, hk]
  · have hkf : st.seen.contains (flatKey u (a1_addr (r + 1) (c + 1))) = false := by
      cases hcon : st.seen.contains (flatKey u (a1_addr (r + 1) (c + 1))) with
      | false => rfl
      | true => exact absurd (contains_iff_memS.mp hcon) hk
    refine flatInv_guard h (k := flatKey u (a1_addr (r + 1) (c + 1)))
      (e := FlatEntry.mk u title (r + 1) (c + 1) (a1_addr (r + 1) (c + 1))
        (gidOf u) (snameOf gm u)) rfl (Or.inr ?_)
    refine ⟨?_, ?_, hkf⟩ <;> simp [primaryUrl, hk]

theorem flatInv_deepOccStep {st : St} (h : FlatInv st)
    (gm : List (Str × Str)) (title : Str) (base : Nat) (it : DeepOcc) :
    FlatInv (deepOccStep gm title base st it) := by
  by_cases hhit : ∃ l ∈ poolLocsFor st.pool it.url,
      l.sheet = title ∧ l.address = it.address <;>
    by_cases hk : flatKey it.url it.address ∈ st.seen
  · refine flatInv_guard h (k := flatKey it.url it.address)
      (e := FlatEntry.mk it.url title it.row it.col it.address
        (gidOf it.url) (snameOf gm it.url)) rfl (Or.inl ?_)
    constructor <;> simp [deepOccStep, hhit, hk]
  · have hkf : st.seen.contains (flatKey it.url it.address) = false := by
      cases hcon : st.seen.contains (flatKey it.url it.address) with
      | false => rfl
      | true => exact absurd (contains_iff_memS.mp hcon) hk
    refine flatInv_guard h (k := flatKey it.url it.address)
      (e := FlatEntry.mk it.url title it.row it.col it.address
        (gidOf it.url) (snameOf gm it.url)) rfl (Or.inr ?_)
    refine ⟨?_, ?_, hkf⟩ <;> simp [deepOccStep, hhit, hk]
  · refine flatInv_guard h (k := flatKey it.url it.address)
      (e := FlatEntry.mk it.url title it.row it.col it.address
        (gidOf it.url) (snameOf gm it.url)) rfl (Or.inl ?_)
    constructor <;> simp [deepOccStep, hhit, hk]
  · have hkf : st.seen.contains (flatKey it.url it.address) = false := by
      cases hcon : st.seen.contains (flatKey it.url it.address) with
      | false => rfl
      | true => exact absurd (contains_iff_memS.mp hcon) hk
    refine flatInv_guard h (k := flatKey it.url it.address)
      (e := FlatEntry.mk it.url title it.row it.col it.address
        (gidOf it.url) (snameOf gm it.url)) rfl (Or.inr ?_)
    refine ⟨?_, ?_, hkf⟩ <;> simp [deepOccStep, hhit, hk]

theorem flatInv_foldl {α : Type} {f : St → α → St}
    (hf : ∀ st a, FlatInv st → FlatInv (f st a)) :
    ∀ (l : List α) (st : St), FlatInv st → FlatInv (l.foldl f st) := by
  intro l
  induction l with
  | nil => intro st h; exact h
  | cons x xs ih =>
    intro st h
    exact ih _ (hf st x h)

theorem flatInv_primaryCell {st : St} (h : FlatInv st)
    (gm : List (Str × Str)) (title : Str) (values formulas : List (List Str))
    (base : Nat) (rc : Nat × Nat) :
    FlatInv (primaryCell gm title values formulas base st rc) := by
  unfold primaryCell
  exact flatInv_foldl
    (fun st2 u hi => flatInv_primaryUrl hi gm title rc.1 rc.2 base u) _ _ h

theorem flatInv_processSheet {st : St} (h : FlatInv st)
    (deep : Bool) (dm : List (Str × List DeepOcc)) (gm : List (Str × Str))
    (s : SheetData) : FlatInv (processSheet deep dm gm st s) := by
  rcases hsv : s.valuesResult with _ | values
  · simp only [processSheet, hsv]
    exact h
  · simp only [processSheet, hsv]
    have h1 : FlatInv { st with rows := st.rows ++ packRows s.title values } :=
      ⟨h.1, h.2⟩
    have h2 := flatInv_foldl
      (fun st2 rc hi => flatInv_primaryCell hi gm s.title values
        (if 0 < values.length ∧ 0 < (values.map List.length).foldr max 0 then
          s.formulasResult.getD [] else []) st.rows.length rc)
      (cellIdx values.length ((values.map List.length).foldr max 0)) _ h1
    split
    · split
      · exact flatInv_foldl
          (fun st2 it hi => flatInv_deepOccStep hi gm s.title st.rows.length it) _ _ h2
      · exact h2
    · exact h2

/-- C10: the flat link-occurrence list is deduplicated by the key
`url + "@@" + address` with no sheet component: in any rebuild no two
flat entries share that key, and on the concrete input where the same URL
occupies cell A1 of two different sheets only the first sheet's
occurrence reaches the flat list even though the per-URL location map
records both occurrences. -/
theorem c10_flat_dedup :
    (∀ input deep dm, (build_index input deep dm).flat.Pairwise
      (fun e1 e2 => flatKey e1.url e1.address ≠ flatKey e2.url e2.address)) ∧
    (build_index
        (some [⟨("S1".data), none, some [[("http://x.com".data)]], none⟩,
               ⟨("S2".data), none, some [[("http://x.com".data)]], none⟩])
        false []).flat.map (fun e => (e.url, e.sheet)) =
      [(("http://x.com".data), ("S1".data))] ∧
    (poolLocsFor
      (build_index
        (some [⟨("S1".data), none, some [[("http://x.com".data)]], none⟩,
               ⟨("S2".data), none, some [[("http://x.com".data)]], none⟩])
        false []).pool ("http://x.com".data)).map (fun l => l.sheet) =
      [("S1".data), ("S2".data)] := by
  refine ⟨fun input deep dm => ?_, by decide, by decide⟩
  cases input with
  | none => simp [build_index]
  | some ws =>
    have hinv : FlatInv (ws.foldl (processSheet deep dm (mkGidMap ws)) ⟨[], [], [], []⟩) :=
      flatInv_foldl (fun st s hi => flatInv_processSheet hi deep dm (mkGidMap ws) s)
        ws _ ⟨fun e he => absurd he (by simp), by simp⟩
    exact hinv.2

/-! ## Supporting lemmas for claim C1: injectivity of A1 address labels -/

theorem indexOf_letter :
    ∀ r : Nat, r < 26 → colLetters.indexOf (colLetters.getD r 'A') = r := by decide

theorem indexOf_digit :
    ∀ r : Nat, r < 10 →
      ("0123456789".data).indexOf (("0123456789".data).getD r '0') = r := by decide

theorem decode26_append (l : Str) (d : Char) :
    decode26 (l ++ [d]) = decode26 l * 26 + (colLetters.indexOf d + 1) := by
  simp [decode26, List.foldl_append]

theorem decode10_append (l : Str) (d : Char) :
    decode10 (l ++ [d]) = decode10 l * 10 + ("0123456789".data).indexOf d := by
  simp [decode10, List.foldl_append]

theorem colLabelAux_decode : ∀ fuel c : Nat, c ≤ fuel →
    decode26 (colLabelAux fuel c) = c := by
  intro fuel
  induction fuel with
  | zero =>
    intro c hc
    have hc0 : c = 0 := by omega
    subst hc0
    rfl
  | succ n ih =>
    intro c hc
    cases c with
    | zero => rfl
    | succ k =>
      have hstep : colLabelAux (n + 1) (k + 1) =
          colLabelAux n (k / 26) ++ [colLetters.getD (k % 26) 'A'] := rfl
      rw [hstep, decode26_append,
        ih (k / 26) (by have := Nat.div_le_self k 26; omega),
        indexOf_letter (k % 26) (Nat.mod_lt _ (by omega))]
      have := Nat.div_add_mod k 26
      omega

theorem colLabel_inj {c1 c2 : Nat} (h : colLabel c1 = colLabel c2) : c1 = c2 := by
  have h1 : decode26 (colLabel c1) = c1 := colLabelAux_decode c1 c1 (Nat.le_refl _)
  have h2 : decode26 (colLabel c2) = c2 := colLabelAux_decode c2 c2 (Nat.le_refl _)
  rw [← h1, ← h2, h]

theorem natDigitsAux_decode : ∀ fuel n : Nat, n ≤ fuel →
    decode10 (natDigitsAux fuel n) = n := by
  intro fuel
  induction fuel with
  | zero =>
    intro n hn
    have hn0 : n = 0 := by omega
    subst hn0
    rfl
  | succ m ih =>
    intro n hn
    cases n with
    | zero => rfl
    | succ k =>
      have hstep : natDigitsAux (m + 1) (k + 1) =
          natDigitsAux m ((k + 1) / 10) ++ [("0123456789".data).getD ((k + 1) % 10) '0'] :=
        rfl
      have hlt : (k + 1) / 10 < k + 1 := Nat.div_lt_self (by omega) (by omega)
      rw [hstep, decode10_append,
        ih ((k + 1) / 10) (by omega),
        indexOf_digit ((k + 1) % 10) (Nat.mod_lt _ (by omega))]
      have := Nat.div_add_mod (k + 1) 10
      omega

theorem natDigits_decode (n : Nat) : decode10 (natDigits n) = n := by
  by_cases h : n = 0
  · subst h
    decide
  · rw [natDigits, if_neg h]
    exact natDigitsAux_decode n n (Nat.le_refl _)

theorem natDigits_inj {a b : Nat} (h : natDigits a = natDigits b) : a = b := by
  have h1 := natDigits_decode a
  have h2 := natDigits_decode b
  rw [← h1, ← h2, h]

theorem letter_alpha (r : Nat) : isUpperAlphaCh (colLetters.getD r 'A') = true := by
  by_cases hr : r < colLetters.length
  · exact (by decide :
      ∀ i : Nat, i < colLetters.length → isUpperAlphaCh (colLetters.getD i 'A') = true) r hr
  · rw [List.getD_eq_default _ _ (by omega)]
    decide

theorem digit_digit (r : Nat) :
    isDigitCh (("0123456789".data).getD r '0') = true := by
  by_cases hr : r < ("0123456789".data).length
  · exact (by decide : ∀ i : Nat, i < ("0123456789".data).length →
      isDigitCh (("0123456789".data).getD i '0') = true) r hr
  · rw [List.getD_eq_default _ _ (by omega)]
    decide

theorem colLabelAux_alpha : ∀ fuel c : Nat, ∀ ch ∈ colLabelAux fuel c,
    isUpperAlphaCh ch = true := by
  intro fuel
  induction fuel with
  | zero =>
    intro c ch h
    cases c with
    | zero => exact absurd (show ch ∈ ([] : Str) from h) (List.not_mem_nil ch)
    | succ k => exact absurd (show ch ∈ ([] : Str) from h) (List.not_mem_nil ch)
  | succ n ih =>
    intro c ch h
    cases c with
    | zero => exact absurd (show ch ∈ ([] : Str) from h) (List.not_mem_nil ch)
    | succ k =>
      have hstep : colLabelAux (n + 1) (k + 1) =
          colLabelAux n (k / 26) ++ [colLetters.getD (k % 26) 'A'] := rfl
      rw [hstep] at h
      rcases List.mem_append.mp h with h | h
      · exact ih _ _ h
      · rcases List.mem_singleton.mp h with rfl
        exact letter_alpha _

theorem natDigitsAux_digit : ∀ fuel n : Nat, ∀ ch ∈ natDigitsAux fuel n,
    isDigitCh ch = true := by
  intro fuel
  induction fuel with
  | zero =>
    intro n ch h
    cases n with
    | zero => exact absurd (show ch ∈ ([] : Str) from h) (List.not_mem_nil ch)
    | succ k => exact absurd (show ch ∈ ([] : Str) from h) (List.not_mem_nil ch)
  | succ m ih =>
    intro n ch h
    cases n with
    | zero => exact absurd (show ch ∈ ([] : Str) from h) (List.not_mem_nil ch)
    | succ k =>
      have hstep : natDigitsAux (m + 1) (k + 1) =
          natDigitsAux m ((k + 1) / 10) ++ [("0123456789".data).getD ((k + 1) % 10) '0'] :=
        rfl
      rw [hstep] at h
      rcases List.mem_append.mp h with h | h
      · exact ih _ _ h
      · rcases List.mem_singleton.mp h with rfl
        exact digit_digit _

theorem natDigits_digit (n : Nat) : ∀ ch ∈ natDigits n, isDigitCh ch = true := by
  intro ch h
  by_cases hn : n = 0
  · subst hn
    rcases List.mem_singleton.mp h with rfl
    decide
  · rw [natDigits, if_neg hn] at h
    exact natDigitsAux_digit n n ch h

theorem natDigits_ne_nil (n : Nat) : natDigits n ≠ [] := by
  by_cases hn : n = 0
  · subst hn
    decide
  · rw [natDigits, if_neg hn]
    cases n with
    | zero => exact absurd rfl hn
    | succ k =>
      have hstep : natDigitsAux (k + 1) (k + 1) =
          natDigitsAux k ((k + 1) / 10) ++ [("0123456789".data).getD ((k + 1) % 10) '0'] :=
        rfl
      rw [hstep]
      simp

theorem digit_not_alpha {ch : Char} (h : isDigitCh ch = true) :
    isUpperAlphaCh ch = false := by
  have h' : 48 ≤ ch.toNat ∧ ch.toNat ≤ 57 := by
    simpa [isDigitCh] using h
  simp [isUpperAlphaCh]
  omega

theorem takeWhile_split (p : Char → Bool) :
    ∀ (l1 : Str) (d : Char) (l2 : Str),
      (∀ x ∈ l1, p x = true) → p d = false →
      (l1 ++ d :: l2).takeWhile p = l1 := by
  intro l1
  induction l1 with
  | nil =>
    intro d l2 _ hd
    rw [List.nil_append, List.takeWhile_cons_of_neg]
    intro hc
    rw [hd] at hc
    exact Bool.false_ne_true hc
  | cons x xs ih =>
    intro d l2 hall hd
    have hx := hall x (List.mem_cons_self x xs)
    rw [List.cons_append, List.takeWhile_cons_of_pos hx,
      ih d l2 (fun y hy => hall y (List.mem_cons_of_mem _ hy)) hd]

/-- `_a1_addr` is injective: distinct cells get distinct address labels. -/
theorem a1_addr_inj {r1 c1 r2 c2 : Nat} (h : a1_addr r1 c1 = a1_addr r2 c2) :
    r1 = r2 ∧ c1 = c2 := by
  obtain ⟨d1, t1, hd1⟩ := List.exists_cons_of_ne_nil (natDigits_ne_nil r1)
  obtain ⟨d2, t2, hd2⟩ := List.exists_cons_of_ne_nil (natDigits_ne_nil r2)
  have hk1 : (a1_addr r1 c1).takeWhile isUpperAlphaCh = colLabel c1 := by
    rw [a1_addr, hd1]
    exact takeWhile_split _ _ _ _ (fun x hx => colLabelAux_alpha _ _ _ hx)
      (digit_not_alpha (natDigits_digit r1 d1 (hd1 ▸ List.mem_cons_self _ _)))
  have hk2 : (a1_addr r2 c2).takeWhile isUpperAlphaCh = colLabel c2 := by
    rw [a1_addr, hd2]
    exact takeWhile_split _ _ _ _ (fun x hx => colLabelAux_alpha _ _ _ hx)
      (digit_not_alpha (natDigits_digit r2 d2 (hd2 ▸ List.mem_cons_self _ _)))
  have hc : colLabel c1 = colLabel c2 := by
    rw [← hk1, ← hk2, h]
  have hcc : c1 = c2 := colLabel_inj hc
  have hcat := h
  rw [a1_addr, a1_addr, hc] at hcat
  exact ⟨natDigits_inj (List.append_cancel_left hcat), hcc⟩

/-! ## Supporting lemmas for claim C1: the registry invariant -/

theorem primaryUrl_pool (gm : List (Str × Str)) (title : Str) (r c base : Nat)
    (st : St) (u : Str) :
    (primaryUrl gm title r c base st u).pool =
      st.pool ++ [PEntry.mk u (Loc.mk title (r + 1) (c + 1) (a1_addr (r + 1) (c + 1))
        (gidOf u) (snameOf gm u))] := by
  by_cases hk : flatKey u (a1_addr (r + 1) (c + 1)) ∈ st.seen <;>
    simp [primaryUrl, hk]

theorem foldl_primaryUrl_pool (gm : List (Str × Str)) (title : Str) (r c base : Nat) :
    ∀ (us : List Str) (st : St),
      (us.foldl (primaryUrl gm title r c base) st).pool =
        st.pool ++ us.map (fun u => PEntry.mk u (Loc.mk title (r + 1) (c + 1)
          (a1_addr (r + 1) (c + 1)) (gidOf u) (snameOf gm u))) := by
  intro us
  induction us with
  | nil => intro st; simp
  | cons u rest ih =>
    intro st
    rw [List.foldl_cons, ih, primaryUrl_pool]
    simp

theorem primaryCell_pool (gm : List (Str × Str)) (title : Str)
    (values formulas : List (List Str)) (base : Nat) (st : St) (rc : Nat × Nat) :
    (primaryCell gm title values formulas base st rc).pool =
      st.pool ++ (extract_links_from_cell ((values.getD rc.1 []).getD rc.2 [])
        ((formulas.getD rc.1 []).getD rc.2 [])).map
          (fun u => PEntry.mk u (Loc.mk title (rc.1 + 1) (rc.2 + 1)
            (a1_addr (rc.1 + 1) (rc.2 + 1)) (gidOf u) (snameOf gm u))) := by
  unfold primaryCell
  exact foldl_primaryUrl_pool gm title rc.1 rc.2 base _ _

/-- The URLs returned for one cell are pairwise distinct (they are
deduplicated by base form, and equal URLs share their base form). -/
theorem extract_links_nodup (val fm : Str) :
    (extract_links_from_cell val fm).Pairwise (fun u1 u2 => u1 ≠ u2) := by
  have h := (cleanUrlsAux_props
    ((if val ≠ [] then urlFindall val else []) ++
      (if fm ≠ [] then
        (match hyperSearch fm with
         | some u =>
           [if ¬ leadsWith ("http".data) u ∧
               (containsSub ("docs.google.com".data) u ||
                containsSub ("drive.google.com".data) u)
            then ("https://".data) ++ u else u]
         | none => []) ++ urlFindall fm
      else [])) []).2
  exact h.imp (fun hb heq => hb (by rw [heq]))

theorem sheetAddrsOK_append {title : Str} {a : Str} {rest : List Str}
    {pool : List PEntry} (h : SheetAddrsOK title (a :: rest) pool) (hnr : a ∉ rest)
    (us : List Str) (hus : us.Pairwise (fun u1 u2 => u1 ≠ u2))
    (mkE : Str → PEntry)
    (hmk : ∀ u, (mkE u).url = u ∧ (mkE u).loc.sheet = title ∧ (mkE u).loc.address = a) :
    SheetAddrsOK title rest (pool ++ us.map mkE) := by
  constructor
  · unfold PoolOK at *
    rw [List.pairwise_append]
    refine ⟨h.1, ?_, ?_⟩
    · rw [List.pairwise_map]
      exact hus.imp (fun hne hcon =>
        hne (((hmk _).1.symm.trans hcon.1).trans (hmk _).1))
    · intro e he e' he'
      rcases List.mem_map.mp he' with ⟨u, hu, rfl⟩
      intro hcon
      have hsheet : e.loc.sheet = title := hcon.2.1.trans (hmk u).2.1
      have haddr : e.loc.address = a := hcon.2.2.trans (hmk u).2.2
      exact (h.2 e he hsheet) (haddr ▸ List.mem_cons_self a rest)
  · intro e he hsheet
    rcases List.mem_append.mp he with he | he
    · intro hmem
      exact (h.2 e he hsheet) (List.mem_cons_of_mem _ hmem)
    · rcases List.mem_map.mp he with ⟨u, hu, rfl⟩
      rw [(hmk u).2.2]
      exact hnr

theorem sheetAddrs_fold (gm : List (Str × Str)) (title : Str)
    (values formulas : List (List Str)) (base : Nat) :
    ∀ (cells : List (Nat × Nat)) (st : St),
      SheetAddrsOK title (cells.map (fun rc => a1_addr (rc.1 + 1) (rc.2 + 1))) st.pool →
      (cells.map (fun rc => a1_addr (rc.1 + 1) (rc.2 + 1))).Nodup →
      SheetAddrsOK title []
        ((cells.foldl (primaryCell gm title values formulas base) st).pool) := by
  intro cells
  induction cells with
  | nil =>
    intro st h _
    exact ⟨h.1, fun e _ _ => List.not_mem_nil _⟩
  | cons rc rest ih =>
    intro st h hnd
    rw [List.map_cons] at h hnd
    rw [List.foldl_cons]
    apply ih
    · rw [primaryCell_pool]
      exact sheetAddrsOK_append h (List.nodup_cons.mp hnd).1
        (extract_links_from_cell ((values.getD rc.1 []).getD rc.2 [])
          ((formulas.getD rc.1 []).getD rc.2 []))
        (extract_links_nodup _ _) _ (fun u => ⟨rfl, rfl, rfl⟩)
    · exact (List.nodup_cons.mp hnd).2

theorem cellIdx_eq (nr nc : Nat) :
    cellIdx nr nc = (List.range nr) ×ˢ (List.range nc) := rfl

theorem cellIdx_addrs_nodup (nr nc : Nat) :
    ((cellIdx nr nc).map (fun rc => a1_addr (rc.1 + 1) (rc.2 + 1))).Nodup := by
  refine List.Nodup.map ?_ ?_
  · intro x y hxy
    have h := a1_addr_inj hxy
    cases x
    cases y
    simp only [Prod.mk.injEq]
    omega
  · rw [cellIdx_eq]
    exact List.Nodup.product (List.nodup_range nr) (List.nodup_range nc)

/-- The deep pass appends a registry occurrence for the current sheet only
when no occurrence with that sheet and address is already stored under the
URL. -/
theorem deepOccStep_pool (gm : List (Str × Str)) (title : Str) (base : Nat)
    (st : St) (it : DeepOcc) :
    (deepOccStep gm title base st it).pool = st.pool ∨
    ((deepOccStep gm title base st it).pool =
      st.pool ++ [PEntry.mk it.url (Loc.mk title it.row it.col it.address
        (gidOf it.url) (snameOf gm it.url))] ∧
     ¬ ∃ l ∈ poolLocsFor st.pool it.url, l.sheet = title ∧ l.address = it.address) := by
  by_cases hhit : ∃ l ∈ poolLocsFor st.pool it.url,
      l.sheet = title ∧ l.address = it.address
  · left
    by_cases hk : flatKey it.url it.address ∈ st.seen <;>
      simp [deepOccStep, hhit, hk]
  · right
    refine ⟨?_, hhit⟩
    by_cases hk : flatKey it.url it.address ∈ st.seen <;>
      simp [deepOccStep, hhit, hk]

theorem deep_fold_poolInv (gm : List (Str × Str)) (title : Str) (base : Nat) :
    ∀ (occs : List DeepOcc) (st : St), PoolOK st.pool →
      PoolOK ((occs.foldl (deepOccStep gm title base) st).pool) ∧
      (∀ e ∈ (occs.foldl (deepOccStep gm title base) st).pool,
        e ∈ st.pool ∨ e.loc.sheet = title) := by
  intro occs
  induction occs with
  | nil => intro st h; exact ⟨h, fun e he => Or.inl he⟩
  | cons it rest ih =>
    intro st h
    rw [List.foldl_cons]
    have hstep : PoolOK (deepOccStep gm title base st it).pool ∧
        ∀ e ∈ (deepOccStep gm title base st it).pool,
          e ∈ st.pool ∨ e.loc.sheet = title := by
      rcases deepOccStep_pool gm title base st it with heq | ⟨heq, hno⟩
      · rw [heq]
        exact ⟨h, fun e he => Or.inl he⟩
      · rw [heq]
        constructor
        · unfold PoolOK at *
          rw [List.pairwise_append]
          refine ⟨h, by simp, ?_⟩
          intro e he e' he'
          rcases List.mem_singleton.mp he' with rfl
          intro hcon
          exact hno ⟨e.loc,
            List.mem_map.mpr ⟨e, List.mem_filter.mpr ⟨he, by simp [hcon.1]⟩, rfl⟩,
            hcon.2.1, hcon.2.2⟩
        · intro e he
          rcases List.mem_append.mp he with he | he
          · exact Or.inl he
          · rcases List.mem_singleton.mp he with rfl
            exact Or.inr rfl
    have hrest := ih _ hstep.1
    refine ⟨hrest.1, fun e he => ?_⟩
    rcases hrest.2 e he with he2 | he2
    · rcases hstep.2 e he2 with he3 | he3
      · exact Or.inl he3
      · exact Or.inr he3
    · exact Or.inr he2

theorem primary_fold_sheets (gm : List (Str × Str)) (title : Str)
    (values formulas : List (List Str)) (base : Nat) :
    ∀ (cells : List (Nat × Nat)) (st : St),
      ∀ e ∈ (cells.foldl (primaryCell gm title values formulas base) st).pool,
        e ∈ st.pool ∨ e.loc.sheet = title := by
  intro cells
  induction cells with
  | nil => intro st e he; exact Or.inl he
  | cons rc rest ih =>
    intro st e he
    rw [List.foldl_cons] at he
    rcases ih _ e he with he2 | he2
    · rw [primaryCell_pool] at he2
      rcases List.mem_append.mp he2 with he3 | he3
      · exact Or.inl he3
      · rcases List.mem_map.mp he3 with ⟨u, _, rfl⟩
        exact Or.inr rfl
    · exact Or.inr he2

theorem processSheet_poolInv (deep : Bool) (dm : List (Str × List DeepOcc))
    (gm : List (Str × Str)) (s : SheetData) (done : List Str) {st : St}
    (h1 : PoolOK st.pool) (h2 : ∀ e ∈ st.pool, e.loc.sheet ∈ done)
    (hnd : s.title ∉ done) :
    PoolOK (processSheet deep dm gm st s).pool ∧
      ∀ e ∈ (processSheet deep dm gm st s).pool,
        e.loc.sheet ∈ done ∨ e.loc.sheet = s.title := by
  rcases hsv : s.valuesResult with _ | values
  · simp only [processSheet, hsv]
    exact ⟨h1, fun e he => Or.inl (h2 e he)⟩
  · simp only [processSheet, hsv]
    have hinit : SheetAddrsOK s.title
        ((cellIdx values.length ((values.map List.length).foldr max 0)).map
          (fun rc => a1_addr (rc.1 + 1) (rc.2 + 1)))
        ({ st with rows := st.rows ++ packRows s.title values } : St).pool := by
      refine ⟨h1, ?_⟩
      intro e he hsheet
      exact absurd (hsheet ▸ h2 e he) hnd
    have hprimary := sheetAddrs_fold gm s.title values
      (if 0 < values.length ∧ 0 < (values.map List.length).foldr max 0 then
        s.formulasResult.getD [] else []) st.rows.length
      (cellIdx values.length ((values.map List.length).foldr max 0))
      { st with rows := st.rows ++ packRows s.title values }
      hinit (cellIdx_addrs_nodup _ _)
    have hsheets := primary_fold_sheets gm s.title values
      (if 0 < values.length ∧ 0 < (values.map List.length).foldr max 0 then
        s.formulasResult.getD [] else []) st.rows.length
      (cellIdx values.length ((values.map List.length).foldr max 0))
      { st with rows := st.rows ++ packRows s.title values }
    split
    · split
      · rename_i p hp
        have hdeep := deep_fold_poolInv gm s.title st.rows.length p.2 _ hprimary.1
        refine ⟨hdeep.1, fun e he => ?_⟩
        rcases hdeep.2 e he with he2 | he2
        · rcases hsheets e he2 with he3 | he3
          · exact Or.inl (h2 e he3)
          · exact Or.inr he3
        · exact Or.inr he2
      · refine ⟨hprimary.1, fun e he => ?_⟩
        rcases hsheets e he with he2 | he2
        · exact Or.inl (h2 e he2)
        · exact Or.inr he2
    · refine ⟨hprimary.1, fun e he => ?_⟩
      rcases hsheets e he with he2 | he2
      · exact Or.inl (h2 e he2)
      · exact Or.inr he2

theorem sheets_fold_poolInv (deep : Bool) (dm : List (Str × List DeepOcc))
    (gm : List (Str × Str)) :
    ∀ (ws : List SheetData) (st : St) (done : List Str),
      PoolOK st.pool → (∀ e ∈ st.pool, e.loc.sheet ∈ done) →
      (∀ s ∈ ws, s.title ∉ done) → (ws.map (fun s => s.title)).Nodup →
      PoolOK ((ws.foldl (processSheet deep dm gm) st).pool) := by
  intro ws
  induction ws with
  | nil => intro st done h1 _ _ _; exact h1
  | cons s rest ih =>
    intro st done h1 h2 hfresh hnodup
    rw [List.foldl_cons]
    rw [List.map_cons, List.nodup_cons] at hnodup
    have hps := processSheet_poolInv deep dm gm s done h1 h2
      (hfresh s (List.mem_cons_self s rest))
    apply ih _ (done ++ [s.title]) hps.1
    · intro e he
      rcases hps.2 e he with he2 | he2
      · exact List.mem_append_left _ he2
      · exact he2 ▸ List.mem_append_right _ (List.mem_singleton_self _)
    · intro s2 hs2
      intro hmem
      rcases List.mem_append.mp hmem with hmem | hmem
      · exact hfresh s2 (List.mem_cons_of_mem _ hs2) hmem
      · rcases List.mem_singleton.mp hmem with heq
        exact hnodup.1 (heq ▸ List.mem_map.mpr ⟨s2, hs2, rfl⟩)
    · exact hnodup.2

/-! ## Claim C1 -/

/-- C1: after one rebuild over worksheets with pairwise-distinct titles
(as Google Sheets guarantees), the registry never stores, under any URL,
two occurrences with the same sheet and the same address — the primary
pass visits each cell once and addresses are injective in the cell, the
deep pass checks the registry before inserting, and distinct sheets tag
their occurrences with distinct titles. -/
theorem c1_registry_nodup (ws : List SheetData) (deep : Bool)
    (dm : List (Str × List DeepOcc))
    (hT : (ws.map (fun s => s.title)).Nodup) (u : Str) :
    (poolLocsFor (build_index (some ws) deep dm).pool u).Pairwise
      (fun l1 l2 => ¬ (l1.sheet = l2.sheet ∧ l1.address = l2.address)) := by
  have hok : PoolOK ((ws.foldl (processSheet deep dm (mkGidMap ws))
      (St.mk [] [] [] [])).pool) :=
    sheets_fold_poolInv deep dm (mkGidMap ws) ws (St.mk [] [] [] []) []
      (by simp [PoolOK]) (by simp) (by simp) hT
  have hfil : ((build_index (some ws) deep dm).pool.filter
      (fun e => e.url = u)).Pairwise (fun e1 e2 =>
        ¬ (e1.url = e2.url ∧ e1.loc.sheet = e2.loc.sheet ∧
           e1.loc.address = e2.loc.address)) :=
    List.Pairwise.sublist (List.filter_sublist _) hok
  unfold poolLocsFor
  rw [List.pairwise_map]
  refine List.Pairwise.imp_of_mem ?_ hfil
  intro a b ha hb hR hcon
  have hau : a.url = u := by
    have := (List.mem_filter.mp ha).2
    simpa using this
  have hbu : b.url = u := by
    have := (List.mem_filter.mp hb).2
    simpa using this
  exact hR ⟨hau.trans hbu.symm, hcon.1, hcon.2⟩

/-- C1 witness: two sheets with distinct titles holding the same URL at
the same address. -/
theorem c1_registry_nodup_witness :
    (([⟨("S1".data), none, some [[("http://x.com".data)]], none⟩,
       ⟨("S2".data), none, some [[("http://x.com".data)]], none⟩] :
        List SheetData).map (fun s => s.title)).Nodup ∧
    (poolLocsFor
      (build_index
        (some [⟨("S1".data), none, some [[("http://x.com".data)]], none⟩,
               ⟨("S2".data), none, some [[("http://x.com".data)]], none⟩])
        false []).pool ("http://x.com".data)).Pairwise
      (fun l1 l2 => ¬ (l1.sheet = l2.sheet ∧ l1.address = l2.address)) :=
  ⟨by decide, c1_registry_nodup _ false [] (by decide) _⟩

end TraCuu
